import Mathlib

/-!
Verification of the `bueno` formatter core (`src/bueno/tools/fmt.rs`).

The repository's own code — the extension dispatch in `format_file`, the
per-language configuration records, and the batch driver `fmt` — is embedded
directly from the source.  The three dprint pretty-printing capabilities
(`dprint_plugin_typescript::format_text`, `dprint_plugin_json::format_text`,
`dprint_plugin_markdown::format_text`) are external library collaborators that
are not part of this repository; they are modelled from the specification's
description of the "Language Formatter Capability" interface (spec sections
2, 4.1, 6 and 8): a pure function of source text and configuration that
returns either "no change" or complete replacement text, may fail with a
syntax error, honours the configured whole-file ignore directive, and is
idempotent on its own output.
-/

namespace BuenoFmt

/-! ## Characters and lines

Text is manipulated at the level of `List Char` (the `data` of a `String`).
`splitLines` and `joinLines` mirror splitting a text into its
newline-separated lines and joining them back.
-/

/-- Split a character list into its lines at `'\n'` separators.
`splitLines "a\nb" = [a, b]`; a trailing newline yields a trailing empty
line.  The result is never empty. -/
def splitLines : List Char → List (List Char)
  | [] => [[]]
  | c :: cs =>
    if c = '\n' then [] :: splitLines cs
    else
      match splitLines cs with
      | [] => [[c]]
      | l :: ls => (c :: l) :: ls

/-- Join lines with `'\n'` separators (inverse of `splitLines`). -/
def joinLines : List (List Char) → List Char
  | [] => []
  | [l] => l
  | l :: ls => l ++ '\n' :: joinLines ls

theorem splitLines_ne_nil (cs : List Char) : splitLines cs ≠ [] := by
  induction cs with
  | nil => simp [splitLines]
  | cons c cs ih =>
    simp only [splitLines]
    split
    · simp
    · split
      · simp
      · simp

theorem splitLines_cons_newline (cs : List Char) :
    splitLines ('\n' :: cs) = [] :: splitLines cs := by
  simp [splitLines]

theorem joinLines_cons (l : List Char) (ls : List (List Char)) (h : ls ≠ []) :
    joinLines (l :: ls) = l ++ '\n' :: joinLines ls := by
  match ls with
  | [] => exact absurd rfl h
  | m :: ms => rfl

theorem joinLines_splitLines (cs : List Char) : joinLines (splitLines cs) = cs := by
  induction cs with
  | nil => rfl
  | cons c cs ih =>
    by_cases hc : c = '\n'
    · subst hc
      rw [splitLines_cons_newline, joinLines_cons _ _ (splitLines_ne_nil cs), ih]
      rfl
    · simp only [splitLines, if_neg hc]
      rcases h : splitLines cs with _ | ⟨l, ls⟩
      · exact absurd h (splitLines_ne_nil cs)
      · rw [h] at ih
        match ls with
        | [] =>
          simp only [joinLines] at ih ⊢
          rw [ih]
        | m :: ms =>
          rw [joinLines_cons l (m :: ms) (by simp)] at ih
          rw [joinLines_cons (c :: l) (m :: ms) (by simp)]
          simp only [List.cons_append]
          rw [ih]

theorem splitLines_no_newline {cs : List Char} {l : List Char}
    (h : l ∈ splitLines cs) : '\n' ∉ l := by
  induction cs generalizing l with
  | nil =>
    simp only [splitLines, List.mem_singleton] at h
    simp [h]
  | cons c cs ih =>
    by_cases hc : c = '\n'
    · subst hc
      rw [splitLines_cons_newline] at h
      rcases List.mem_cons.mp h with h | h
      · simp [h]
      · exact ih h
    · simp only [splitLines, if_neg hc] at h
      rcases heq : splitLines cs with _ | ⟨m, ms⟩
      · exact absurd heq (splitLines_ne_nil cs)
      · rw [heq] at h
        rcases List.mem_cons.mp h with h | h
        · subst h
          intro hmem
          rcases List.mem_cons.mp hmem with h1 | h1
          · exact hc h1.symm
          · exact ih (by rw [heq]; exact List.mem_cons_self m ms) h1
        · exact ih (by rw [heq]; exact List.mem_cons_of_mem m h)

theorem splitLines_of_no_newline {l : List Char} (h : '\n' ∉ l) :
    splitLines l = [l] := by
  induction l with
  | nil => rfl
  | cons c cs ih =>
    have hc : c ≠ '\n' := by intro hc; exact h (hc ▸ List.mem_cons_self c cs)
    have hcs : '\n' ∉ cs := fun hm => h (List.mem_cons_of_mem c hm)
    simp only [splitLines, if_neg (by simpa using hc), ih hcs]

theorem splitLines_append_newline_cons {l : List Char} (h : '\n' ∉ l)
    (cs : List Char) : splitLines (l ++ '\n' :: cs) = l :: splitLines cs := by
  induction l with
  | nil => simp [splitLines]
  | cons c cl ih =>
    have hc : c ≠ '\n' := by intro hc; exact h (hc ▸ List.mem_cons_self c cl)
    have hcl : '\n' ∉ cl := fun hm => h (List.mem_cons_of_mem c hm)
    show splitLines (c :: (cl ++ '\n' :: cs)) = (c :: cl) :: splitLines cs
    simp only [splitLines, if_neg hc, ih hcl]

theorem splitLines_joinLines {ls : List (List Char)} (hne : ls ≠ [])
    (h : ∀ l ∈ ls, '\n' ∉ l) : splitLines (joinLines ls) = ls := by
  induction ls with
  | nil => exact absurd rfl hne
  | cons l ls ih =>
    match ls with
    | [] =>
      simp only [joinLines]
      exact splitLines_of_no_newline (h l (List.mem_cons_self l []))
    | m :: ms =>
      rw [joinLines_cons _ _ (by simp),
        splitLines_append_newline_cons (h l (List.mem_cons_self l (m :: ms))),
        ih (by simp) (fun x hx => h x (List.mem_cons_of_mem l hx))]

theorem splitLines_append_newline (cs : List Char) :
    splitLines (cs ++ ['\n']) = splitLines cs ++ [[]] := by
  induction cs with
  | nil => simp [splitLines]
  | cons c cs ih =>
    show splitLines (c :: (cs ++ ['\n'])) = _
    by_cases hc : c = '\n'
    · subst hc
      rw [splitLines_cons_newline, splitLines_cons_newline, ih]
      rfl
    · simp only [splitLines, if_neg hc]
      rcases h : splitLines cs with _ | ⟨l, ls⟩
      · exact absurd h (splitLines_ne_nil cs)
      · rw [h] at ih
        rw [ih]
        simp

/-- A prefix test is unaffected by text appended after a newline, provided the
prefix itself contains no newline. -/
theorem isPrefixOf_append_newline {d l rest : List Char} (hd : '\n' ∉ d) :
    d.isPrefixOf (l ++ '\n' :: rest) = d.isPrefixOf l := by
  induction d generalizing l with
  | nil => simp [List.isPrefixOf]
  | cons x d ih =>
    have hx : x ≠ '\n' := by intro hx; exact hd (hx ▸ List.mem_cons_self x d)
    have hdd : '\n' ∉ d := fun hm => hd (List.mem_cons_of_mem x hm)
    match l with
    | [] =>
      simp only [List.nil_append, List.isPrefixOf]
      simp [hx]
    | y :: l =>
      show (x :: d).isPrefixOf (y :: (l ++ '\n' :: rest)) = _
      simp only [List.isPrefixOf, ih hdd]

theorem isPrefixOf_concat_newline {d l : List Char} (hd : '\n' ∉ d) :
    d.isPrefixOf (l ++ ['\n']) = d.isPrefixOf l :=
  @isPrefixOf_append_newline d l [] hd

/-! ## Canonical form

Modelled from the spec: the spec fixes only the capability interface — a
pretty-printer returns "unchanged" or complete replacement text (§2, §3
"Format Result") — and the idempotence contract ("formatting the output of a
successful format of text T for a given tag yields no change", §8).  The
concrete normalization performed by the external dprint printers is out of the
spec's scope, so it is modelled here by a minimal non-trivial canonicalizer:
ensure the text ends in a newline. -/

/-- Canonical form of a text: the text itself if it already ends in a newline,
otherwise the text with a final newline appended. -/
def canonChars (cs : List Char) : List Char :=
  if cs.getLast? = some '\n' then cs else cs ++ ['\n']

theorem canonChars_idem (cs : List Char) :
    canonChars (canonChars cs) = canonChars cs := by
  by_cases h : cs.getLast? = some '\n'
  · simp [canonChars, h]
  · simp [canonChars, h, List.getLast?_concat]

theorem canonChars_eq_self_or_append (cs : List Char) :
    canonChars cs = cs ∨ canonChars cs = cs ++ ['\n'] := by
  unfold canonChars
  split
  · exact Or.inl rfl
  · exact Or.inr rfl

theorem isPrefixOf_canonChars {d : List Char} (cs : List Char) (hd : '\n' ∉ d) :
    d.isPrefixOf (canonChars cs) = d.isPrefixOf cs := by
  unfold canonChars
  split
  · rfl
  · exact isPrefixOf_concat_newline hd

/-! ## Formatter configurations

These records embed the configuration objects built in `fmt.rs`
(`ConfigurationBuilder::new()....build()`): the fields are exactly the options
the source sets, with the values the source passes. -/

inductive QuoteProps where
  | preserve
  | asNeeded
deriving DecidableEq

inductive SortOrder where
  | maintain
  | caseInsensitive
deriving DecidableEq

inductive TextWrap where
  | always
  | never
  | maintain
deriving DecidableEq

structure TypeScriptConfiguration where
  deno : Bool
  useTabs : Bool
  quoteProps : QuoteProps
  commentLineForceSpaceAfterSlashes : Bool
  ignoreNodeCommentText : String
  ignoreFileCommentText : String
  moduleSortImportDeclarations : SortOrder
  moduleSortExportDeclarations : SortOrder

structure JsonConfiguration where
  lineWidth : Nat
  useTabs : Bool
  ignoreNodeCommentText : String
  commentLineForceSpaceAfterSlashes : Bool

structure MarkdownConfiguration where
  textWrap : TextWrap
  ignoreDirective : String
  ignoreStartDirective : String
  ignoreEndDirective : String
  ignoreFileDirective : String

/-- The script-language configuration built in `format_typescript_file`
(`fmt.rs` lines 23–32). -/
def typescriptConfiguration : TypeScriptConfiguration where
  deno := true
  useTabs := true
  quoteProps := QuoteProps.asNeeded
  commentLineForceSpaceAfterSlashes := true
  ignoreNodeCommentText := "bueno-fmt-ignore"
  ignoreFileCommentText := "bueno-fmt-ignore-file"
  moduleSortImportDeclarations := SortOrder.caseInsensitive
  moduleSortExportDeclarations := SortOrder.caseInsensitive

/-- The structured-data configuration built in `format_json_file`
(`fmt.rs` lines 39–44). -/
def jsonConfiguration : JsonConfiguration where
  lineWidth := 80
  useTabs := true
  ignoreNodeCommentText := "bueno-fmt-ignore"
  commentLineForceSpaceAfterSlashes := true

/-- The prose configuration built in `format_markdown_file`
(`fmt.rs` lines 51–57). -/
def markdownConfiguration : MarkdownConfiguration where
  textWrap := TextWrap.always
  ignoreDirective := "bueno-fmt-ignore"
  ignoreStartDirective := "bueno-fmt-ignore-start"
  ignoreEndDirective := "bueno-fmt-ignore-end"
  ignoreFileDirective := "bueno-fmt-ignore-file"

/-! ## Errors -/

/-- Errors surfaced by the formatting pipeline (the embedding of the
`AnyError` values that flow through `fmt.rs`). -/
inductive FmtError where
  | syntaxError (msg : String)
  | readError (path : String)
  | globPattern (msg : String)
  | depth
deriving DecidableEq

/-! ## Modelled pretty-printer capabilities

The three `dprint_plugin_*::format_text` functions are external library
collaborators, not code of this repository.  They are modelled from the
spec's "Language Formatter Capability" contract (§2, §4.1, §6, §8). -/

/-- The leading line-comment form in which the script and structured-data
printers recognize a whole-file ignore marker (spec §6: ignore markers are
recognized tokens placed in source comments). -/
def lineCommentDirective (marker : String) : List Char :=
  ('/' :: '/' :: ' ' :: []) ++ marker.data

/-- The leading HTML-comment form in which the prose printer recognizes a
whole-file ignore directive. -/
def htmlCommentDirective (marker : String) : List Char :=
  "<!-- ".data ++ marker.data ++ " -->".data

/-- Modelled from the spec: the script printer "may fail with a syntax/parse
error" on malformed input (§2, §4.1); malformedness is modelled as unbalanced
parentheses. -/
def scriptParseOk (cs : List Char) : Bool :=
  cs.count '(' == cs.count ')'

/-- Modelled from the spec: the structured-data printer "may fail with a
syntax/parse error" (§2, §4.1); a text with no non-whitespace character has no
value to print and is modelled as malformed. -/
def jsonParseOk (cs : List Char) : Bool :=
  cs.any (fun c => !c.isWhitespace)

/-- Modelled from the spec: `dprint_plugin_typescript::format_text` — a pure
function of source text and configuration (§2; the path argument carried by
the library interface does not enter the result).  A file beginning with the
configured whole-file ignore comment yields "no change" regardless of the rest
of its content (§6, §8); otherwise malformed text fails with a syntax error,
and well-formed text is replaced by its canonical form, with "no change"
reported when it is already canonical (§3 "Format Result", §4.1). -/
def dprint_typescript_format_text (path : String) (contents : String)
    (config : TypeScriptConfiguration) : Except FmtError (Option String) :=
  if (lineCommentDirective config.ignoreFileCommentText).isPrefixOf contents.data then
    .ok none
  else if scriptParseOk contents.data then
    if canonChars contents.data = contents.data then .ok none
    else .ok (some ⟨canonChars contents.data⟩)
  else .error (.syntaxError "script parse error")

/-- Modelled from the spec: `dprint_plugin_json::format_text` — same contract
as the script printer (§2, §4.1).  The whole-file ignore comment it recognizes
is the configured node-level marker with `-file` appended, which reconciles
§4.1 (only the node marker is configured for structured data) with §6/§8 (a
file of any supported tag beginning with `bueno-fmt-ignore-file` yields "no
change"). -/
def dprint_json_format_text (contents : String) (config : JsonConfiguration) :
    Except FmtError (Option String) :=
  if (lineCommentDirective (config.ignoreNodeCommentText ++ "-file")).isPrefixOf contents.data then
    .ok none
  else if jsonParseOk contents.data then
    if canonChars contents.data = contents.data then .ok none
    else .ok (some ⟨canonChars contents.data⟩)
  else .error (.syntaxError "json parse error")

theorem scriptParseOk_canonChars (cs : List Char) :
    scriptParseOk (canonChars cs) = scriptParseOk cs := by
  rcases canonChars_eq_self_or_append cs with h | h <;> rw [h]
  simp [scriptParseOk, List.count_append]

theorem jsonParseOk_canonChars (cs : List Char) :
    jsonParseOk (canonChars cs) = jsonParseOk cs := by
  rcases canonChars_eq_self_or_append cs with h | h <;> rw [h]
  simp [jsonParseOk, List.any_append, Char.isWhitespace]

theorem dprint_typescript_format_text_idem {p p' c t : String}
    {config : TypeScriptConfiguration}
    (hd : '\n' ∉ lineCommentDirective config.ignoreFileCommentText)
    (h : dprint_typescript_format_text p c config = .ok (some t)) :
    dprint_typescript_format_text p' t config = .ok none := by
  unfold dprint_typescript_format_text at h ⊢
  by_cases h1 : (lineCommentDirective config.ignoreFileCommentText).isPrefixOf c.data = true
  · rw [if_pos h1] at h
    exact absurd h (by simp)
  · rw [if_neg h1] at h
    by_cases h2 : scriptParseOk c.data = true
    · rw [if_pos h2] at h
      by_cases h3 : canonChars c.data = c.data
      · rw [if_pos h3] at h
        exact absurd h (by simp)
      · rw [if_neg h3] at h
        have ht : t = ⟨canonChars c.data⟩ := by
          injection h with h
          injection h with h
          exact h.symm
        subst ht
        show (if (lineCommentDirective config.ignoreFileCommentText).isPrefixOf
            (canonChars c.data) = true then _ else _) = _
        rw [if_neg (by rw [isPrefixOf_canonChars c.data hd]; exact h1)]
        rw [if_pos (by rw [scriptParseOk_canonChars]; exact h2)]
        rw [if_pos (canonChars_idem c.data)]
    · rw [if_neg h2] at h
      exact absurd h (by simp)

theorem dprint_json_format_text_idem {c t : String} {config : JsonConfiguration}
    (hd : '\n' ∉ lineCommentDirective (config.ignoreNodeCommentText ++ "-file"))
    (h : dprint_json_format_text c config = .ok (some t)) :
    dprint_json_format_text t config = .ok none := by
  unfold dprint_json_format_text at h ⊢
  by_cases h1 : (lineCommentDirective
      (config.ignoreNodeCommentText ++ "-file")).isPrefixOf c.data = true
  · rw [if_pos h1] at h
    exact absurd h (by simp)
  · rw [if_neg h1] at h
    by_cases h2 : jsonParseOk c.data = true
    · rw [if_pos h2] at h
      by_cases h3 : canonChars c.data = c.data
      · rw [if_pos h3] at h
        exact absurd h (by simp)
      · rw [if_neg h3] at h
        have ht : t = ⟨canonChars c.data⟩ := by
          injection h with h
          injection h with h
          exact h.symm
        subst ht
        show (if (lineCommentDirective (config.ignoreNodeCommentText ++ "-file")).isPrefixOf
            (canonChars c.data) = true then _ else _) = _
        rw [if_neg (by rw [isPrefixOf_canonChars c.data hd]; exact h1)]
        rw [if_pos (by rw [jsonParseOk_canonChars]; exact h2)]
        rw [if_pos (canonChars_idem c.data)]
    · rw [if_neg h2] at h
      exact absurd h (by simp)

/-! ## Modelled prose pretty-printer

Modelled from the spec: `dprint_plugin_markdown::format_text` "can contain
fenced code blocks tagged with a language" and "is given a callback invoked
once per embedded fenced code block, receiving the block's declared language
tag and raw text" (§2, §4.1).  A document is modelled as a sequence of prose
lines and fenced blocks; a fence opens at a line starting with three backticks
(the rest of the line is the declared tag) and closes at the next such line.
Formatting invokes the callback on each block's raw text, replaces the block's
body with the callback's replacement text when one is produced, and reports
"no change" when reassembly reproduces the input.  The prose re-wrapping done
by the real printer is out of the spec's scope and is not modelled: prose
lines pass through unchanged. -/

/-- The three-backtick fence marker delimiting an embedded code block. -/
def fenceGuard : List Char := ['`', '`', '`']

/-- A line opens or closes a fenced code block when it starts with three
backticks. -/
def isFenceLine (l : List Char) : Bool := fenceGuard.isPrefixOf l

/-- One piece of a prose document: a plain prose line, or a fenced code block
with its declared language tag and body lines. -/
inductive MdSegment where
  | prose (line : List Char)
  | fence (tag : List Char) (body : List (List Char))
deriving DecidableEq

/-- Collect the body of an open fence: the lines up to (excluding) the next
fence line; the remainder starts after that closing line. -/
def takeFenceBody : List (List Char) → List (List Char) × List (List Char)
  | [] => ([], [])
  | l :: ls =>
    if isFenceLine l then ([], ls)
    else
      let r := takeFenceBody ls
      (l :: r.1, r.2)

theorem takeFenceBody_rest_length (ls : List (List Char)) :
    (takeFenceBody ls).2.length ≤ ls.length := by
  induction ls with
  | nil => simp [takeFenceBody]
  | cons l ls ih =>
    simp only [takeFenceBody]
    split
    · simp
    · simpa using Nat.le_succ_of_le ih

/-- Fuel-indexed worker for `parseMdSegments`; the fuel only serves to make
the recursion structural, and `parseMdGo_fuel_irrelevant` shows any fuel of at
least the number of lines gives the same result. -/
def parseMdGo : Nat → List (List Char) → List MdSegment
  | 0, _ => []
  | _ + 1, [] => []
  | fuel + 1, l :: ls =>
    if isFenceLine l then
      MdSegment.fence (l.drop 3) (takeFenceBody ls).1
        :: parseMdGo fuel (takeFenceBody ls).2
    else MdSegment.prose l :: parseMdGo fuel ls

/-- Parse a document's lines into prose lines and fenced blocks. -/
def parseMdSegments (lines : List (List Char)) : List MdSegment :=
  parseMdGo lines.length lines

theorem parseMdGo_fuel_irrelevant :
    ∀ (fuel fuel' : Nat) (lines : List (List Char)),
      lines.length ≤ fuel → lines.length ≤ fuel' →
      parseMdGo fuel lines = parseMdGo fuel' lines := by
  intro fuel
  induction fuel with
  | zero =>
    intro fuel' lines h _
    have : lines = [] := List.length_eq_zero.mp (Nat.le_zero.mp h)
    subst this
    cases fuel' <;> rfl
  | succ f ih =>
    intro fuel' lines h h'
    match lines with
    | [] => cases fuel' <;> rfl
    | l :: ls =>
      match fuel' with
      | 0 => exact absurd h' (by simp)
      | f' + 1 =>
        simp only [parseMdGo]
        have hls : ls.length ≤ f := by simpa using h
        have hls' : ls.length ≤ f' := by simpa using h'
        split
        · exact congrArg _ (ih f' (takeFenceBody ls).2
            (Nat.le_trans (takeFenceBody_rest_length ls) hls)
            (Nat.le_trans (takeFenceBody_rest_length ls) hls'))
        · exact congrArg _ (ih f' ls hls hls')

theorem parseMdSegments_nil : parseMdSegments [] = [] := rfl

theorem parseMdSegments_prose {l : List Char} (h : isFenceLine l = false)
    (ls : List (List Char)) :
    parseMdSegments (l :: ls) = MdSegment.prose l :: parseMdSegments ls := by
  show parseMdGo (ls.length + 1) (l :: ls) = _
  simp only [parseMdGo, h, Bool.false_eq_true, if_false]
  rfl

theorem parseMdSegments_fence {l : List Char} (h : isFenceLine l = true)
    (ls : List (List Char)) :
    parseMdSegments (l :: ls) =
      MdSegment.fence (l.drop 3) (takeFenceBody ls).1
        :: parseMdSegments (takeFenceBody ls).2 := by
  show parseMdGo (ls.length + 1) (l :: ls) = _
  simp only [parseMdGo, h, if_true]
  exact congrArg _ (parseMdGo_fuel_irrelevant _ _ _
    (takeFenceBody_rest_length ls) (Nat.le_refl _))

/-- Render one segment back into lines; a fence renders with its opening
tag line and a closing fence line. -/
def renderSegment : MdSegment → List (List Char)
  | .prose l => [l]
  | .fence tag body => (fenceGuard ++ tag) :: (body ++ [fenceGuard])

/-- Render a parsed document back into lines. -/
def renderSegments (segs : List MdSegment) : List (List Char) :=
  (segs.map renderSegment).flatten

/-- Apply the embedded-block callback to one segment: prose passes through;
for a fence the callback receives the declared tag and the block's raw text,
and its replacement text (when any) becomes the new body. -/
def processSegment (cb : String → String → Nat → Except FmtError (Option String)) :
    MdSegment → Except FmtError MdSegment
  | .prose l => .ok (.prose l)
  | .fence tag body =>
    match cb ⟨tag⟩ ⟨joinLines body⟩ 0 with
    | .error e => .error e
    | .ok none => .ok (.fence tag body)
    | .ok (some t) => .ok (.fence tag (splitLines t.data))

/-- Apply the callback to every segment, propagating the first failure. -/
def processSegments (cb : String → String → Nat → Except FmtError (Option String)) :
    List MdSegment → Except FmtError (List MdSegment)
  | [] => .ok []
  | s :: ss =>
    match processSegment cb s with
    | .error e => .error e
    | .ok s' =>
      match processSegments cb ss with
      | .error e => .error e
      | .ok ss' => .ok (s' :: ss')

/-- Modelled from the spec: `dprint_plugin_markdown::format_text`.  A document
beginning with the configured whole-file ignore directive yields "no change"
(§4.1, §6, §8); otherwise every embedded fenced code block is handed to the
callback and replaced by its result, and "no change" is reported when the
reassembled document equals the input (§3 "Format Result"). -/
def dprint_markdown_format_text (contents : String) (config : MarkdownConfiguration)
    (cb : String → String → Nat → Except FmtError (Option String)) :
    Except FmtError (Option String) :=
  if (htmlCommentDirective config.ignoreFileDirective).isPrefixOf contents.data then
    .ok none
  else
    match processSegments cb (parseMdSegments (splitLines contents.data)) with
    | .error e => .error e
    | .ok segs =>
      if joinLines (renderSegments segs) = contents.data then .ok none
      else .ok (some ⟨joinLines (renderSegments segs)⟩)

/-! ## The dispatcher and per-language entry points (`fmt.rs` lines 14–69) -/

/-- `fake_path` (`fmt.rs` line 14): builds `file.<ext>` so the script printer
sees a path with the requested extension. -/
def fake_path (ext : String) : String := "file." ++ ext

/-- `format_typescript_file` (`fmt.rs` line 19): invoke the script printer
with the repository's fixed configuration. -/
def format_typescript_file (path : String) (contents : String) :
    Except FmtError (Option String) :=
  dprint_typescript_format_text path contents typescriptConfiguration

/-- `format_json_file` (`fmt.rs` line 36): invoke the structured-data printer
with the repository's fixed configuration. -/
def format_json_file (contents : String) : Except FmtError (Option String) :=
  dprint_json_format_text contents jsonConfiguration

/-- Fuel-indexed dispatcher tying the `format_file` ↔ `format_markdown_file`
recursion.  The spec bounds the recursion: "Recursion depth is bounded by
document nesting (fenced blocks cannot nest blocks of the same kind in the
supported prose grammar), so no explicit depth guard is required" (§4.1).  In
the model a fence body never contains a fence line, so depth 2 is never
exceeded and `fmtGo (n + 2)` is independent of `n` (`fmtGo_fuel_stable`). -/
def fmtGo : Nat → String → String → Except FmtError (Option String)
  | 0, _, _ => .error .depth
  | fuel + 1, ext, contents =>
    if ext = "js" ∨ ext = "ts" ∨ ext = "jsx" ∨ ext = "tsx" then
      format_typescript_file (fake_path ext) contents
    else if ext = "json" ∨ ext = "jsonc" then
      format_json_file contents
    else if ext = "md" ∨ ext = "markdown" then
      dprint_markdown_format_text contents markdownConfiguration
        (fun tag text _lineNumber => fmtGo fuel tag text)
    else .ok none

/-- `format_file` (`fmt.rs` line 62): dispatch on the language tag — script
extensions to the script printer (through `fake_path`), structured-data
extensions to the structured-data printer, prose extensions to the prose
printer with the recursive embedded-block callback, and `Ok(None)` ("no
change") for every other tag. -/
def format_file (ext : String) (contents : String) : Except FmtError (Option String) :=
  fmtGo 2 ext contents

/-- `format_markdown_file` (`fmt.rs` line 48): invoke the prose printer with
the repository's fixed configuration and the callback
`|tag, text, _line_number| format_file(tag, text)`. -/
def format_markdown_file (contents : String) : Except FmtError (Option String) :=
  dprint_markdown_format_text contents markdownConfiguration
    (fun tag text _lineNumber => format_file tag text)

/-! ## Structural lemmas about the prose document model -/

theorem takeFenceBody_body_not_fence (ls : List (List Char)) :
    ∀ l ∈ (takeFenceBody ls).1, isFenceLine l = false := by
  induction ls with
  | nil => simp [takeFenceBody]
  | cons l ls ih =>
    cases hf : isFenceLine l with
    | true => simp [takeFenceBody, hf]
    | false =>
      intro m hm
      simp only [takeFenceBody, hf, Bool.false_eq_true, if_false] at hm
      rcases List.mem_cons.mp hm with h | h
      · subst h; exact hf
      · exact ih m h

theorem takeFenceBody_body_mem (ls : List (List Char)) :
    ∀ l ∈ (takeFenceBody ls).1, l ∈ ls := by
  induction ls with
  | nil => simp [takeFenceBody]
  | cons l ls ih =>
    cases hf : isFenceLine l with
    | true => simp [takeFenceBody, hf]
    | false =>
      intro m hm
      simp only [takeFenceBody, hf, Bool.false_eq_true, if_false] at hm
      rcases List.mem_cons.mp hm with h | h
      · subst h; exact List.mem_cons_self _ _
      · exact List.mem_cons_of_mem _ (ih m h)

theorem takeFenceBody_rest_mem (ls : List (List Char)) :
    ∀ l ∈ (takeFenceBody ls).2, l ∈ ls := by
  induction ls with
  | nil => simp [takeFenceBody]
  | cons l ls ih =>
    cases hf : isFenceLine l with
    | true =>
      intro m hm
      simp only [takeFenceBody, hf, if_true] at hm
      exact List.mem_cons_of_mem _ hm
    | false =>
      intro m hm
      simp only [takeFenceBody, hf, Bool.false_eq_true, if_false] at hm
      exact List.mem_cons_of_mem _ (ih m hm)

theorem isFenceLine_fenceGuard : isFenceLine fenceGuard = true := by decide

theorem takeFenceBody_append {body : List (List Char)}
    (h : ∀ l ∈ body, isFenceLine l = false) (rest : List (List Char)) :
    takeFenceBody (body ++ fenceGuard :: rest) = (body, rest) := by
  induction body with
  | nil => simp [takeFenceBody, isFenceLine_fenceGuard]
  | cons l body ih =>
    have hl : isFenceLine l = false := h l (List.mem_cons_self _ _)
    have hb : ∀ m ∈ body, isFenceLine m = false :=
      fun m hm => h m (List.mem_cons_of_mem _ hm)
    show takeFenceBody (l :: (body ++ fenceGuard :: rest)) = _
    simp only [takeFenceBody, hl, Bool.false_eq_true, if_false, ih hb]

/-- A segment produced by parsing well-formed lines: no embedded newline
anywhere, prose lines and body lines are not fence lines. -/
def SegmentWF : MdSegment → Prop
  | .prose l => '\n' ∉ l ∧ isFenceLine l = false
  | .fence tag body => '\n' ∉ tag ∧ ∀ l ∈ body, '\n' ∉ l ∧ isFenceLine l = false

theorem parseMdSegments_wf_aux :
    ∀ (n : Nat) (lines : List (List Char)), lines.length ≤ n →
      (∀ l ∈ lines, '\n' ∉ l) → ∀ s ∈ parseMdSegments lines, SegmentWF s := by
  intro n
  induction n with
  | zero =>
    intro lines h _
    have : lines = [] := List.length_eq_zero.mp (Nat.le_zero.mp h)
    subst this
    simp [parseMdSegments_nil]
  | succ n ih =>
    intro lines hlen hnl s hs
    match lines with
    | [] => simp [parseMdSegments_nil] at hs
    | l :: ls =>
      have hlsn : ls.length ≤ n := by simpa using hlen
      cases hf : isFenceLine l with
      | false =>
        rw [parseMdSegments_prose hf] at hs
        rcases List.mem_cons.mp hs with h | h
        · subst h
          exact ⟨hnl l (List.mem_cons_self _ _), hf⟩
        · exact ih ls hlsn (fun m hm => hnl m (List.mem_cons_of_mem _ hm)) s h
      | true =>
        rw [parseMdSegments_fence hf] at hs
        rcases List.mem_cons.mp hs with h | h
        · subst h
          refine ⟨fun hm => hnl l (List.mem_cons_self _ _) (List.drop_subset 3 l hm), ?_⟩
          intro m hm
          exact ⟨hnl m (List.mem_cons_of_mem _ (takeFenceBody_body_mem ls m hm)),
            takeFenceBody_body_not_fence ls m hm⟩
        · exact ih (takeFenceBody ls).2
            (Nat.le_trans (takeFenceBody_rest_length ls) hlsn)
            (fun m hm => hnl m (List.mem_cons_of_mem _ (takeFenceBody_rest_mem ls m hm)))
            s h

theorem parseMdSegments_wf {lines : List (List Char)}
    (hnl : ∀ l ∈ lines, '\n' ∉ l) : ∀ s ∈ parseMdSegments lines, SegmentWF s :=
  parseMdSegments_wf_aux lines.length lines (Nat.le_refl _) hnl

theorem renderSegments_nil : renderSegments [] = [] := rfl

theorem renderSegments_cons (s : MdSegment) (ss : List MdSegment) :
    renderSegments (s :: ss) = renderSegment s ++ renderSegments ss := by
  simp [renderSegments]

theorem renderSegments_map_prose (lines : List (List Char)) :
    renderSegments (lines.map MdSegment.prose) = lines := by
  induction lines with
  | nil => rfl
  | cons l ls ih =>
    rw [List.map_cons, renderSegments_cons, ih]
    rfl

theorem renderSegment_ne_nil (s : MdSegment) : renderSegment s ≠ [] := by
  cases s <;> simp [renderSegment]

theorem renderSegments_cons_ne_nil (s : MdSegment) (ss : List MdSegment) :
    renderSegments (s :: ss) ≠ [] := by
  rw [renderSegments_cons]
  intro h
  exact renderSegment_ne_nil s (List.append_eq_nil.mp h).1

theorem renderSegments_noNl {segs : List MdSegment}
    (h : ∀ s ∈ segs, SegmentWF s) : ∀ l ∈ renderSegments segs, '\n' ∉ l := by
  induction segs with
  | nil => simp [renderSegments_nil]
  | cons s ss ih =>
    intro l hl
    rw [renderSegments_cons] at hl
    rcases List.mem_append.mp hl with hl | hl
    · have hws := h s (List.mem_cons_self _ _)
      cases s with
      | prose p =>
        simp only [renderSegment, List.mem_singleton] at hl
        subst hl
        exact hws.1
      | fence tag body =>
        simp only [renderSegment, List.mem_cons] at hl
        rcases hl with hl | hl
        · subst hl
          intro hm
          rcases List.mem_append.mp hm with hm | hm
          · simp [fenceGuard] at hm
          · exact hws.1 hm
        · rcases List.mem_append.mp hl with hm | hm
          · exact (hws.2 l hm).1
          · simp only [List.mem_singleton] at hm
            subst hm
            simp [fenceGuard]
    · exact ih (fun t ht => h t (List.mem_cons_of_mem _ ht)) l hl

theorem isFenceLine_guard_append (tag : List Char) :
    isFenceLine (fenceGuard ++ tag) = true := by
  simp [isFenceLine, fenceGuard, List.isPrefixOf]

theorem fenceGuard_append_drop (tag : List Char) :
    (fenceGuard ++ tag).drop 3 = tag := by
  simp [fenceGuard]

theorem parse_render {segs : List MdSegment} (h : ∀ s ∈ segs, SegmentWF s) :
    parseMdSegments (renderSegments segs) = segs := by
  induction segs with
  | nil => rfl
  | cons s ss ih =>
    have hws := h s (List.mem_cons_self _ _)
    have hss := fun t ht => h t (List.mem_cons_of_mem s ht)
    cases s with
    | prose l =>
      rw [renderSegments_cons]
      show parseMdSegments (l :: renderSegments ss) = _
      rw [parseMdSegments_prose hws.2, ih hss]
    | fence tag body =>
      rw [renderSegments_cons]
      show parseMdSegments
        ((fenceGuard ++ tag) :: ((body ++ [fenceGuard]) ++ renderSegments ss)) = _
      rw [parseMdSegments_fence (isFenceLine_guard_append tag)]
      have harr : (body ++ [fenceGuard]) ++ renderSegments ss
          = body ++ fenceGuard :: renderSegments ss := by simp
      rw [harr, takeFenceBody_append (fun l hl => (hws.2 l hl).2) (renderSegments ss)]
      rw [fenceGuard_append_drop, ih hss]

/-! ## Processing lemmas -/

theorem processSegments_cons_ok {cb : String → String → Nat → Except FmtError (Option String)}
    {s : MdSegment} {ss : List MdSegment} {segs' : List MdSegment}
    (h : processSegments cb (s :: ss) = .ok segs') :
    ∃ s' ss', processSegment cb s = .ok s' ∧ processSegments cb ss = .ok ss' ∧
      segs' = s' :: ss' := by
  rcases h1 : processSegment cb s with e | s'
  · rw [processSegments, h1] at h
    exact absurd h (by simp)
  · rw [processSegments, h1] at h
    rcases h2 : processSegments cb ss with e | ss'
    · rw [h2] at h
      exact absurd h (by simp)
    · rw [h2] at h
      injection h with h
      exact ⟨s', ss', rfl, rfl, h.symm⟩

theorem processSegments_map_prose
    (cb : String → String → Nat → Except FmtError (Option String))
    (lines : List (List Char)) :
    processSegments cb (lines.map MdSegment.prose) = .ok (lines.map MdSegment.prose) := by
  induction lines with
  | nil => rfl
  | cons l ls ih => simp [processSegments, processSegment, ih]

theorem parse_no_fence {lines : List (List Char)}
    (h : ∀ l ∈ lines, isFenceLine l = false) :
    parseMdSegments lines = lines.map MdSegment.prose := by
  induction lines with
  | nil => rfl
  | cons l ls ih =>
    rw [parseMdSegments_prose (h l (List.mem_cons_self _ _)),
      ih (fun m hm => h m (List.mem_cons_of_mem _ hm))]
    rfl

/-- On a document with no fence line, the prose printer reports "no change"
whatever the callback and configuration: there is no block to rewrite and
prose passes through unchanged. -/
theorem dprint_markdown_format_text_no_fence {x : String}
    (config : MarkdownConfiguration)
    (cb : String → String → Nat → Except FmtError (Option String))
    (h : ∀ l ∈ splitLines x.data, isFenceLine l = false) :
    dprint_markdown_format_text x config cb = .ok none := by
  unfold dprint_markdown_format_text
  split
  · rfl
  · rw [parse_no_fence h, processSegments_map_prose]
    simp [renderSegments_map_prose, joinLines_splitLines]

theorem no_fence_of_parse_prose {lines : List (List Char)}
    (h : ∀ s ∈ parseMdSegments lines, ∃ l, s = MdSegment.prose l) :
    ∀ l ∈ lines, isFenceLine l = false := by
  induction lines with
  | nil => simp
  | cons l ls ih =>
    cases hf : isFenceLine l with
    | true =>
      exfalso
      rw [parseMdSegments_fence hf] at h
      obtain ⟨m, hm⟩ := h _ (List.mem_cons_self _ _)
      simp at hm
    | false =>
      intro m hm
      rcases List.mem_cons.mp hm with h1 | h1
      · subst h1; exact hf
      · refine ih (fun s hs => h s ?_) m h1
        rw [parseMdSegments_prose hf]
        exact List.mem_cons_of_mem _ hs

theorem processSegments_cbZero {segs segs' : List MdSegment}
    (h : processSegments (fun tag text _ln => fmtGo 0 tag text) segs = .ok segs') :
    segs' = segs ∧ ∀ s ∈ segs, ∃ l, s = MdSegment.prose l := by
  induction segs generalizing segs' with
  | nil =>
    refine ⟨?_, by simp⟩
    rw [processSegments] at h
    injection h with h
    exact h.symm
  | cons s ss ih =>
    obtain ⟨s', ss', h1, h2, h3⟩ := processSegments_cons_ok h
    cases s with
    | prose l =>
      rw [processSegment] at h1
      injection h1 with h1
      obtain ⟨heq, hpr⟩ := ih h2
      subst h3 heq
      rw [← h1]
      refine ⟨rfl, ?_⟩
      intro t ht
      rcases List.mem_cons.mp ht with h4 | h4
      · exact ⟨l, h4⟩
      · exact hpr t h4
    | fence tag body =>
      exfalso
      rw [processSegment] at h1
      exact absurd h1 (by simp [fmtGo])

/-- The prose branch at fuel 1 never produces replacement text: with an
exhausted-fuel callback, a document with an embedded block fails instead, and
a document without one is unchanged. -/
theorem fmtGo_one_md_not_some {x t : String}
    (h : dprint_markdown_format_text x markdownConfiguration
      (fun tag text _ln => fmtGo 0 tag text) = .ok (some t)) : False := by
  rcases hp : processSegments (fun tag text _ln => fmtGo 0 tag text)
      (parseMdSegments (splitLines x.data)) with e | segs'
  · unfold dprint_markdown_format_text at h
    split at h
    · exact absurd h (by simp)
    · rw [hp] at h
      exact absurd h (by simp)
  · obtain ⟨_, hpr⟩ := processSegments_cbZero hp
    rw [dprint_markdown_format_text_no_fence markdownConfiguration _
      (no_fence_of_parse_prose hpr)] at h
    exact absurd h (by simp)

/-! ## Idempotence of the dispatcher -/

theorem fmtGo_one (ext contents : String) :
    fmtGo 1 ext contents =
      if ext = "js" ∨ ext = "ts" ∨ ext = "jsx" ∨ ext = "tsx" then
        format_typescript_file (fake_path ext) contents
      else if ext = "json" ∨ ext = "jsonc" then
        format_json_file contents
      else if ext = "md" ∨ ext = "markdown" then
        dprint_markdown_format_text contents markdownConfiguration
          (fun tag text _lineNumber => fmtGo 0 tag text)
      else .ok none := rfl

theorem fmtGo_two (ext contents : String) :
    fmtGo 2 ext contents =
      if ext = "js" ∨ ext = "ts" ∨ ext = "jsx" ∨ ext = "tsx" then
        format_typescript_file (fake_path ext) contents
      else if ext = "json" ∨ ext = "jsonc" then
        format_json_file contents
      else if ext = "md" ∨ ext = "markdown" then
        dprint_markdown_format_text contents markdownConfiguration
          (fun tag text _lineNumber => fmtGo 1 tag text)
      else .ok none := rfl

theorem dprint_typescript_some_eq {p c t : String} {config : TypeScriptConfiguration}
    (h : dprint_typescript_format_text p c config = .ok (some t)) :
    t = ⟨canonChars c.data⟩ := by
  unfold dprint_typescript_format_text at h
  split at h
  · exact absurd h (by simp)
  · split at h
    · split at h
      · exact absurd h (by simp)
      · injection h with h
        injection h with h
        exact h.symm
    · exact absurd h (by simp)

theorem dprint_json_some_eq {c t : String} {config : JsonConfiguration}
    (h : dprint_json_format_text c config = .ok (some t)) :
    t = ⟨canonChars c.data⟩ := by
  unfold dprint_json_format_text at h
  split at h
  · exact absurd h (by simp)
  · split at h
    · split at h
      · exact absurd h (by simp)
      · injection h with h
        injection h with h
        exact h.symm
    · exact absurd h (by simp)

theorem fmtGo_one_idem {tag x t : String}
    (h : fmtGo 1 tag x = .ok (some t)) : fmtGo 1 tag t = .ok none := by
  rw [fmtGo_one] at h ⊢
  by_cases h1 : tag = "js" ∨ tag = "ts" ∨ tag = "jsx" ∨ tag = "tsx"
  · rw [if_pos h1] at h ⊢
    exact dprint_typescript_format_text_idem (by decide) h
  · rw [if_neg h1] at h ⊢
    by_cases h2 : tag = "json" ∨ tag = "jsonc"
    · rw [if_pos h2] at h ⊢
      exact dprint_json_format_text_idem (by decide) h
    · rw [if_neg h2] at h ⊢
      by_cases h3 : tag = "md" ∨ tag = "markdown"
      · rw [if_pos h3] at h
        exact absurd h (fun h => fmtGo_one_md_not_some h)
      · rw [if_neg h3] at h
        exact absurd h (by simp)

/-- The lines of the canonical form of a fence body are never fence lines. -/
theorem canonLines_not_fence {body : List (List Char)}
    (hwfb : ∀ l ∈ body, '\n' ∉ l ∧ isFenceLine l = false) :
    ∀ l ∈ splitLines (canonChars (joinLines body)), isFenceLine l = false := by
  have hsplit : splitLines (joinLines body) = body ∨ splitLines (joinLines body) = [[]] := by
    match body with
    | [] => exact Or.inr rfl
    | b :: bs =>
      exact Or.inl (splitLines_joinLines (by simp) (fun l hl => (hwfb l hl).1))
  have hbase : ∀ l ∈ splitLines (joinLines body), isFenceLine l = false := by
    rcases hsplit with h | h <;> rw [h]
    · exact fun l hl => (hwfb l hl).2
    · intro l hl
      simp only [List.mem_singleton] at hl
      subst hl
      rfl
  rcases canonChars_eq_self_or_append (joinLines body) with h | h <;> rw [h]
  · exact hbase
  · rw [splitLines_append_newline]
    intro l hl
    rcases List.mem_append.mp hl with h1 | h1
    · exact hbase l h1
    · simp only [List.mem_singleton] at h1
      subst h1
      rfl

theorem processSegment_wf_fix {s s' : MdSegment}
    (hwf : SegmentWF s)
    (h : processSegment (fun tag text _ln => fmtGo 1 tag text) s = .ok s') :
    SegmentWF s' ∧ processSegment (fun tag text _ln => fmtGo 1 tag text) s' = .ok s' := by
  cases s with
  | prose l =>
    rw [processSegment] at h
    injection h with h
    subst h
    exact ⟨hwf, rfl⟩
  | fence tag body =>
    rw [processSegment] at h
    rcases hcb : fmtGo 1 ⟨tag⟩ ⟨joinLines body⟩ with e | r
    · rw [hcb] at h
      exact absurd h (by simp)
    · rw [hcb] at h
      match r with
      | none =>
        injection h with h
        subst h
        exact ⟨hwf, by rw [processSegment, hcb]⟩
      | some t =>
        injection h with h
        subst h
        have heta : (⟨t.data⟩ : String) = t := rfl
        have hfix : processSegment (fun tag text _ln => fmtGo 1 tag text)
            (MdSegment.fence tag (splitLines t.data)) =
            .ok (MdSegment.fence tag (splitLines t.data)) := by
          rw [processSegment, joinLines_splitLines, heta, fmtGo_one_idem hcb]
        refine ⟨⟨hwf.1, ?_⟩, hfix⟩
        intro l hl
        refine ⟨splitLines_no_newline hl, ?_⟩
        -- the replacement text came from the fuel-1 dispatcher: case on its branch
        rw [fmtGo_one] at hcb
        by_cases h1 : (⟨tag⟩ : String) = "js" ∨ (⟨tag⟩ : String) = "ts" ∨
            (⟨tag⟩ : String) = "jsx" ∨ (⟨tag⟩ : String) = "tsx"
        · rw [if_pos h1] at hcb
          have ht := dprint_typescript_some_eq hcb
          subst ht
          exact canonLines_not_fence hwf.2 l (by simpa using hl)
        · rw [if_neg h1] at hcb
          by_cases h2 : (⟨tag⟩ : String) = "json" ∨ (⟨tag⟩ : String) = "jsonc"
          · rw [if_pos h2] at hcb
            have ht := dprint_json_some_eq hcb
            subst ht
            exact canonLines_not_fence hwf.2 l (by simpa using hl)
          · rw [if_neg h2] at hcb
            by_cases h3 : (⟨tag⟩ : String) = "md" ∨ (⟨tag⟩ : String) = "markdown"
            · rw [if_pos h3] at hcb
              exact absurd hcb (fun hcb => fmtGo_one_md_not_some hcb)
            · rw [if_neg h3] at hcb
              exact absurd hcb (by simp)

theorem processSegments_wf_fix {segs segs' : List MdSegment}
    (hwf : ∀ s ∈ segs, SegmentWF s)
    (h : processSegments (fun tag text _ln => fmtGo 1 tag text) segs = .ok segs') :
    (∀ s' ∈ segs', SegmentWF s') ∧
      processSegments (fun tag text _ln => fmtGo 1 tag text) segs' = .ok segs' := by
  induction segs generalizing segs' with
  | nil =>
    rw [processSegments] at h
    injection h with h
    subst h
    exact ⟨by simp, rfl⟩
  | cons s ss ih =>
    obtain ⟨s', ss', h1, h2, h3⟩ := processSegments_cons_ok h
    subst h3
    obtain ⟨hwf1, hfix1⟩ := processSegment_wf_fix (hwf s (List.mem_cons_self _ _)) h1
    obtain ⟨hwf2, hfix2⟩ := ih (fun u hu => hwf u (List.mem_cons_of_mem _ hu)) h2
    refine ⟨?_, ?_⟩
    · intro u hu
      rcases List.mem_cons.mp hu with h4 | h4
      · subst h4; exact hwf1
      · exact hwf2 u h4
    · rw [processSegments, hfix1, hfix2]

theorem isPrefixOf_joinLines_head {d : List Char} (hd : '\n' ∉ d)
    (x : List Char) (xs : List (List Char)) :
    d.isPrefixOf (joinLines (x :: xs)) = d.isPrefixOf x := by
  match xs with
  | [] => rfl
  | y :: ys =>
    rw [joinLines_cons _ _ (by simp)]
    exact isPrefixOf_append_newline hd

theorem isPrefixOf_false_of_head_ne {a b : Char} (h : a ≠ b) (as bs : List Char) :
    (a :: as).isPrefixOf (b :: bs) = false := by
  simp [List.isPrefixOf, h]

theorem html_directive_no_newline :
    '\n' ∉ htmlCommentDirective markdownConfiguration.ignoreFileDirective := by decide

theorem html_directive_cons :
    htmlCommentDirective markdownConfiguration.ignoreFileDirective
      = '<' :: "!-- bueno-fmt-ignore-file -->".data := by decide

/-- The reassembled output of the prose printer cannot begin with the
whole-file ignore directive when the input did not: its first line is either
the input's first prose line or a backtick fence line. -/
theorem directive_out_false {x : String} {segs' : List MdSegment}
    (hdir : ¬ (htmlCommentDirective markdownConfiguration.ignoreFileDirective).isPrefixOf
      x.data = true)
    (hp : processSegments (fun tag text _ln => fmtGo 1 tag text)
      (parseMdSegments (splitLines x.data)) = .ok segs') :
    (htmlCommentDirective markdownConfiguration.ignoreFileDirective).isPrefixOf
      (joinLines (renderSegments segs')) = false := by
  obtain ⟨l₀, rest, hl₀⟩ := List.exists_cons_of_ne_nil (splitLines_ne_nil x.data)
  rw [hl₀] at hp
  cases hf : isFenceLine l₀ with
  | false =>
    rw [parseMdSegments_prose hf] at hp
    obtain ⟨s', ss', h1, _, h3⟩ := processSegments_cons_ok hp
    rw [processSegment] at h1
    injection h1 with h1
    subst h3
    rw [← h1, renderSegments_cons]
    show (htmlCommentDirective markdownConfiguration.ignoreFileDirective).isPrefixOf
      (joinLines (l₀ :: renderSegments ss')) = false
    rw [isPrefixOf_joinLines_head html_directive_no_newline]
    have hx : x.data = joinLines (l₀ :: rest) := by
      rw [← hl₀, joinLines_splitLines]
    rw [hx, isPrefixOf_joinLines_head html_directive_no_newline] at hdir
    exact Bool.not_eq_true _ ▸ (Bool.eq_false_iff.mpr hdir)
  | true =>
    rw [parseMdSegments_fence hf] at hp
    obtain ⟨s', ss', h1, _, h3⟩ := processSegments_cons_ok hp
    subst h3
    have hshape : ∃ body', s' = MdSegment.fence (l₀.drop 3) body' := by
      rw [processSegment] at h1
      rcases hcb : fmtGo 1 ⟨l₀.drop 3⟩ ⟨joinLines (takeFenceBody rest).1⟩ with e | r
      · rw [hcb] at h1
        exact absurd h1 (by simp)
      · rw [hcb] at h1
        match r with
        | none =>
          injection h1 with h1
          exact ⟨_, h1.symm⟩
        | some t₁ =>
          injection h1 with h1
          exact ⟨_, h1.symm⟩
    obtain ⟨body', hb⟩ := hshape
    subst hb
    rw [renderSegments_cons]
    show (htmlCommentDirective markdownConfiguration.ignoreFileDirective).isPrefixOf
      (joinLines ((fenceGuard ++ l₀.drop 3) :: ((body' ++ [fenceGuard]) ++ renderSegments ss')))
      = false
    rw [isPrefixOf_joinLines_head html_directive_no_newline, html_directive_cons,
      show fenceGuard ++ l₀.drop 3 = '`' :: ('`' :: '`' :: l₀.drop 3) from rfl]
    exact isPrefixOf_false_of_head_ne (by decide) _ _

/-- Idempotence of the modelled prose printer under the repository's fuel-1
embedded-block callback: replacement text reformats to "no change". -/
theorem markdown_idem {x t : String}
    (h : dprint_markdown_format_text x markdownConfiguration
      (fun tag text _ln => fmtGo 1 tag text) = .ok (some t)) :
    dprint_markdown_format_text t markdownConfiguration
      (fun tag text _ln => fmtGo 1 tag text) = .ok none := by
  unfold dprint_markdown_format_text at h
  by_cases hdir : (htmlCommentDirective markdownConfiguration.ignoreFileDirective).isPrefixOf
      x.data = true
  · rw [if_pos hdir] at h
    exact absurd h (by simp)
  · rw [if_neg hdir] at h
    rcases hp : processSegments (fun tag text _ln => fmtGo 1 tag text)
        (parseMdSegments (splitLines x.data)) with e | segs'
    · rw [hp] at h
      exact absurd h (by simp)
    · rw [hp] at h
      replace h : (if joinLines (renderSegments segs') = x.data
          then (Except.ok none : Except FmtError (Option String))
          else Except.ok (some ⟨joinLines (renderSegments segs')⟩))
          = Except.ok (some t) := h
      by_cases hout : joinLines (renderSegments segs') = x.data
      · rw [if_pos hout] at h
        exact absurd h (by simp)
      · rw [if_neg hout] at h
        injection h with h
        injection h with h
        subst h
        have hwf : ∀ s ∈ parseMdSegments (splitLines x.data), SegmentWF s :=
          parseMdSegments_wf (fun l hl => splitLines_no_newline hl)
        obtain ⟨hwf', hfix⟩ := processSegments_wf_fix hwf hp
        have hrnl : ∀ l ∈ renderSegments segs', '\n' ∉ l := renderSegments_noNl hwf'
        have hrender_ne : renderSegments segs' ≠ [] := by
          obtain ⟨l₀, rest, hl₀⟩ := List.exists_cons_of_ne_nil (splitLines_ne_nil x.data)
          rw [hl₀] at hp
          cases hf : isFenceLine l₀ with
          | false =>
            rw [parseMdSegments_prose hf] at hp
            obtain ⟨s', ss', _, _, h3⟩ := processSegments_cons_ok hp
            rw [h3]
            exact renderSegments_cons_ne_nil s' ss'
          | true =>
            rw [parseMdSegments_fence hf] at hp
            obtain ⟨s', ss', _, _, h3⟩ := processSegments_cons_ok hp
            rw [h3]
            exact renderSegments_cons_ne_nil s' ss'
        have hsl : splitLines ((⟨joinLines (renderSegments segs')⟩ : String).data)
            = renderSegments segs' := splitLines_joinLines hrender_ne hrnl
        have hparse : parseMdSegments
            (splitLines ((⟨joinLines (renderSegments segs')⟩ : String).data)) = segs' := by
          rw [hsl]
          exact parse_render hwf'
        have hdir' := directive_out_false hdir hp
        unfold dprint_markdown_format_text
        rw [if_neg (by simp [hdir']), hparse, hfix]
        show (if joinLines (renderSegments segs')
            = (⟨joinLines (renderSegments segs')⟩ : String).data
          then (Except.ok none : Except FmtError (Option String))
          else Except.ok (some ⟨joinLines (renderSegments segs')⟩)) = Except.ok none
        rw [if_pos rfl]

/-- Unfolding of the fuel-indexed dispatcher at a successor fuel. -/
theorem fmtGo_succ (fuel : Nat) (ext contents : String) :
    fmtGo (fuel + 1) ext contents =
      if ext = "js" ∨ ext = "ts" ∨ ext = "jsx" ∨ ext = "tsx" then
        format_typescript_file (fake_path ext) contents
      else if ext = "json" ∨ ext = "jsonc" then
        format_json_file contents
      else if ext = "md" ∨ ext = "markdown" then
        dprint_markdown_format_text contents markdownConfiguration
          (fun tag text _lineNumber => fmtGo fuel tag text)
      else .ok none := rfl

theorem joinLines_no_fence {body : List (List Char)}
    (h : ∀ l ∈ body, '\n' ∉ l ∧ isFenceLine l = false) :
    ∀ l ∈ splitLines (joinLines body), isFenceLine l = false := by
  have hsplit : splitLines (joinLines body) = body ∨ splitLines (joinLines body) = [[]] := by
    match body with
    | [] => exact Or.inr rfl
    | b :: bs =>
      exact Or.inl (splitLines_joinLines (by simp) (fun l hl => (h l hl).1))
  rcases hsplit with h1 | h1 <;> rw [h1]
  · exact fun l hl => (h l hl).2
  · intro l hl
    simp only [List.mem_singleton] at hl
    subst hl
    rfl

/-- On a document with no fence line, any two positive fuels agree: the
script and structured-data branches ignore the fuel and the prose branch never
invokes its callback. -/
theorem fmtGo_succ_congr_of_no_fence {x : String}
    (hx : ∀ l ∈ splitLines x.data, isFenceLine l = false)
    (n m : Nat) (tag : String) :
    fmtGo (n + 1) tag x = fmtGo (m + 1) tag x := by
  rw [fmtGo_succ, fmtGo_succ]
  by_cases h1 : tag = "js" ∨ tag = "ts" ∨ tag = "jsx" ∨ tag = "tsx"
  · rw [if_pos h1, if_pos h1]
  · rw [if_neg h1, if_neg h1]
    by_cases h2 : tag = "json" ∨ tag = "jsonc"
    · rw [if_pos h2, if_pos h2]
    · rw [if_neg h2, if_neg h2]
      by_cases h3 : tag = "md" ∨ tag = "markdown"
      · rw [if_pos h3, if_pos h3,
          dprint_markdown_format_text_no_fence markdownConfiguration _ hx,
          dprint_markdown_format_text_no_fence markdownConfiguration _ hx]
      · rw [if_neg h3, if_neg h3]

theorem processSegments_congr {cb cb' : String → String → Nat → Except FmtError (Option String)}
    {segs : List MdSegment}
    (h : ∀ s ∈ segs, processSegment cb s = processSegment cb' s) :
    processSegments cb segs = processSegments cb' segs := by
  induction segs with
  | nil => rfl
  | cons s ss ih =>
    rw [processSegments, processSegments, h s (List.mem_cons_self _ _),
      ih (fun u hu => h u (List.mem_cons_of_mem _ hu))]

/-- The prose printer's result depends on the callback only through its values
on the parsed blocks. -/
theorem dprint_markdown_congr {c : String} {config : MarkdownConfiguration}
    {cb cb' : String → String → Nat → Except FmtError (Option String)}
    (hagree : ∀ tag body, MdSegment.fence tag body ∈ parseMdSegments (splitLines c.data) →
      cb ⟨tag⟩ ⟨joinLines body⟩ 0 = cb' ⟨tag⟩ ⟨joinLines body⟩ 0) :
    dprint_markdown_format_text c config cb = dprint_markdown_format_text c config cb' := by
  have hpr : ∀ s ∈ parseMdSegments (splitLines c.data),
      processSegment cb s = processSegment cb' s := by
    intro s hs
    cases s with
    | prose l => rfl
    | fence tag body =>
      rw [processSegment, processSegment, hagree tag body hs]
  unfold dprint_markdown_format_text
  rw [processSegments_congr hpr]

/-- The fuel-2 knot in `format_file` is exact: all larger fuels agree, because
a fence body never contains a fence line and so the recursion stops at depth
two (spec §4.1: "Recursion depth is bounded by document nesting"). -/
theorem fmtGo_fuel_stable (n : Nat) (ext contents : String) :
    fmtGo (n + 2) ext contents = fmtGo 2 ext contents := by
  rw [show n + 2 = (n + 1) + 1 from rfl, fmtGo_succ, fmtGo_two]
  by_cases h1 : ext = "js" ∨ ext = "ts" ∨ ext = "jsx" ∨ ext = "tsx"
  · rw [if_pos h1, if_pos h1]
  · rw [if_neg h1, if_neg h1]
    by_cases h2 : ext = "json" ∨ ext = "jsonc"
    · rw [if_pos h2, if_pos h2]
    · rw [if_neg h2, if_neg h2]
      by_cases h3 : ext = "md" ∨ ext = "markdown"
      · rw [if_pos h3, if_pos h3]
        apply dprint_markdown_congr
        intro tag body hmem
        have hwf := parseMdSegments_wf
          (fun l hl => splitLines_no_newline hl) _ hmem
        exact fmtGo_succ_congr_of_no_fence (joinLines_no_fence hwf.2) n 0 ⟨tag⟩
      · rw [if_neg h3, if_neg h3]

/-- `format_file` on a prose extension agrees with `format_markdown_file`:
the fuel-1 callback inside `format_file` and the full recursive callback of
`format_markdown_file` coincide on every parsed block. -/
theorem format_file_md_eq (c : String) :
    format_file "md" c = format_markdown_file c := by
  unfold format_file format_markdown_file
  rw [fmtGo_two, if_neg (by simp), if_neg (by simp), if_pos (Or.inl rfl)]
  apply dprint_markdown_congr
  intro tag body hmem
  have hwf := parseMdSegments_wf
    (fun l hl => splitLines_no_newline hl) _ hmem
  exact fmtGo_succ_congr_of_no_fence (joinLines_no_fence hwf.2) 0 1 ⟨tag⟩

/-- Idempotence of the dispatcher: replacement text reformats to
"no change" for every extension. -/
theorem format_file_idem {ext x t : String}
    (h : format_file ext x = .ok (some t)) : format_file ext t = .ok none := by
  unfold format_file at h ⊢
  rw [fmtGo_two] at h ⊢
  by_cases h1 : ext = "js" ∨ ext = "ts" ∨ ext = "jsx" ∨ ext = "tsx"
  · rw [if_pos h1] at h ⊢
    unfold format_typescript_file at h ⊢
    exact dprint_typescript_format_text_idem (by decide) h
  · rw [if_neg h1] at h ⊢
    by_cases h2 : ext = "json" ∨ ext = "jsonc"
    · rw [if_pos h2] at h ⊢
      unfold format_json_file at h ⊢
      exact dprint_json_format_text_idem (by decide) h
    · rw [if_neg h2] at h ⊢
      by_cases h3 : ext = "md" ∨ ext = "markdown"
      · rw [if_pos h3] at h ⊢
        exact markdown_idem h
      · rw [if_neg h3] at h
        exact absurd h (by simp)

/-! ## The batch driver (`fmt.rs` lines 71–99)

The driver's ambient effects are embedded explicitly: the filesystem is an
association list from paths to contents, glob expansion is a function supplied
by the world (the `glob` crate is an external collaborator), and every
observable action (`println!`, `read_to_string`, `write`) is recorded in an
event trace.  A path matched by the glob but absent from the filesystem models
a file whose read fails. -/

abbrev Path := String

abbrev FileSystem := List (Path × String)

def readFile : FileSystem → Path → Option String
  | [], _ => none
  | e :: fs, p => if e.1 = p then some e.2 else readFile fs p

def writeFile : FileSystem → Path → String → FileSystem
  | [], _, _ => []
  | e :: fs, p, t => (if e.1 = p then (e.1, t) else e) :: writeFile fs p t

/-- The embedding of `path.extension().and_then(OsStr::to_str)`: the portion
of the file name after the last `.`; `none` when the file name has no `.` or
only a leading one. -/
def extension (p : Path) : Option String :=
  match (p.data.reverse.takeWhile (fun c => c ≠ '/')).reverse with
  | [] => none
  | _ :: rest =>
    if '.' ∈ rest then some ⟨(rest.reverse.takeWhile (fun c => c ≠ '.')).reverse⟩
    else none

/-- The extension set matched by the driver's
`ext @ ("js" | "ts" | "jsx" | "tsx" | "json" | "jsonc" | "md" | "markdown")`
pattern (`fmt.rs` line 81). -/
def isSupportedExt (ext : String) : Bool :=
  ext == "js" || ext == "ts" || ext == "jsx" || ext == "tsx" ||
    ext == "json" || ext == "jsonc" || ext == "md" || ext == "markdown"

/-- Observable actions of one driver run, in order. -/
inductive Event where
  | printedFmt (path : Path)
  | printedErr (msg : String)
  | readEv (path : Path)
  | wrote (path : Path) (text : String)
deriving DecidableEq

deriving instance DecidableEq for Except

structure RunOutcome where
  trace : List Event
  fs : FileSystem
  result : Except FmtError Unit
deriving DecidableEq

/-- `FormatOptions` (`fmt.rs` line 71). -/
structure FormatOptions where
  check : Bool
  glob : String

/-- The ambient world of one run: the glob expander and the filesystem. -/
structure World where
  globFn : String → Except String (List (Except String Path))
  fs : FileSystem

/-- The driver loop over the expanded entries (`fmt.rs` lines 77–96):
an `Err` entry is printed and skipped; an `Ok` path with an unsupported (or
missing) extension is skipped silently; otherwise the file is read (a failed
read aborts), dispatched (a dispatch error aborts), and on replacement text
the notice is printed and — unless in check mode — the file overwritten. -/
def runEntries (check : Bool) : List (Except String Path) → FileSystem → RunOutcome
  | [], fs => ⟨[], fs, .ok ()⟩
  | .error e :: rest, fs =>
    let r := runEntries check rest fs
    ⟨.printedErr e :: r.trace, r.fs, r.result⟩
  | .ok p :: rest, fs =>
    match extension p with
    | none => runEntries check rest fs
    | some ext =>
      if isSupportedExt ext then
        match readFile fs p with
        | none => ⟨[.readEv p], fs, .error (.readError p)⟩
        | some contents =>
          match format_file ext contents with
          | .error e => ⟨[.readEv p], fs, .error e⟩
          | .ok none =>
            let r := runEntries check rest fs
            ⟨.readEv p :: r.trace, r.fs, r.result⟩
          | .ok (some text) =>
            if check then
              let r := runEntries check rest fs
              ⟨.readEv p :: .printedFmt p :: r.trace, r.fs, r.result⟩
            else
              let r := runEntries check rest (writeFile fs p text)
              ⟨.readEv p :: .printedFmt p :: .wrote p text :: r.trace, r.fs, r.result⟩
      else runEntries check rest fs

/-- `fmt` (`fmt.rs` line 76): expand the glob — a pattern-compilation failure
aborts before anything is read, printed or written — then process every
entry. -/
def fmt (options : FormatOptions) (w : World) : RunOutcome :=
  match w.globFn options.glob with
  | .error e => ⟨[], w.fs, .error (.globPattern e)⟩
  | .ok entries => runEntries options.check entries w.fs

/-- The paths of the successfully resolved glob entries. -/
def okPaths (entries : List (Except String Path)) : List Path :=
  entries.filterMap (fun e => match e with | .ok p => some p | .error _ => none)

/-- Specification-side description of the dispatcher's verdict on one file:
the replacement text for path `p` with contents `c`, or `none` when the file
is unsupported, already canonical, or fails. -/
def replacementFor (p : Path) (c : String) : Option String :=
  match extension p with
  | some ext =>
    if isSupportedExt ext then
      match format_file ext c with
      | .ok (some t) => some t
      | _ => none
    else none
  | none => none

/-! ## Filesystem lemmas -/

theorem readFile_writeFile_self {fs : FileSystem} {p : Path} {c : String}
    (h : readFile fs p = some c) (t : String) :
    readFile (writeFile fs p t) p = some t := by
  induction fs with
  | nil => simp [readFile] at h
  | cons e fs ih =>
    by_cases hap : e.1 = p
    · simp [readFile, writeFile, hap]
    · simp only [readFile, if_neg hap] at h
      simp [readFile, writeFile, hap, ih h]

theorem readFile_writeFile_ne {fs : FileSystem} {p q : Path} (t : String)
    (h : q ≠ p) : readFile (writeFile fs q t) p = readFile fs p := by
  induction fs with
  | nil => rfl
  | cons e fs ih =>
    by_cases haq : e.1 = q
    · have hap : e.1 ≠ p := fun hp => h (haq ▸ hp ▸ rfl)
      simp [readFile, writeFile, haq, hap, h, ih]
    · by_cases hap : e.1 = p
      · simp [readFile, writeFile, haq, hap, Ne.symm h]
      · simp [readFile, writeFile, haq, hap, ih]

/-! ## Driver unfolding lemmas -/

theorem runEntries_nil (check : Bool) (fs : FileSystem) :
    runEntries check [] fs = ⟨[], fs, .ok ()⟩ := rfl

theorem runEntries_errEntry (check : Bool) (e : String)
    (rest : List (Except String Path)) (fs : FileSystem) :
    runEntries check (.error e :: rest) fs =
      ⟨.printedErr e :: (runEntries check rest fs).trace,
        (runEntries check rest fs).fs, (runEntries check rest fs).result⟩ := rfl

theorem runEntries_skip_noExt {p : Path} (h : extension p = none) (check : Bool)
    (rest : List (Except String Path)) (fs : FileSystem) :
    runEntries check (.ok p :: rest) fs = runEntries check rest fs := by
  simp only [runEntries, h]

theorem runEntries_skip_unsupported {p : Path} {ext : String}
    (hext : extension p = some ext) (hsup : isSupportedExt ext = false)
    (check : Bool) (rest : List (Except String Path)) (fs : FileSystem) :
    runEntries check (.ok p :: rest) fs = runEntries check rest fs := by
  simp only [runEntries, hext, hsup, Bool.false_eq_true, if_false]

theorem runEntries_read_fail {p : Path} {ext : String} {fs : FileSystem}
    (hext : extension p = some ext) (hsup : isSupportedExt ext = true)
    (hread : readFile fs p = none) (check : Bool)
    (rest : List (Except String Path)) :
    runEntries check (.ok p :: rest) fs = ⟨[.readEv p], fs, .error (.readError p)⟩ := by
  simp only [runEntries, hext, hsup, if_true, hread]

theorem runEntries_dispatch_error {p : Path} {ext : String} {fs : FileSystem}
    {c : String} {e : FmtError}
    (hext : extension p = some ext) (hsup : isSupportedExt ext = true)
    (hread : readFile fs p = some c) (hfmt : format_file ext c = .error e)
    (check : Bool) (rest : List (Except String Path)) :
    runEntries check (.ok p :: rest) fs = ⟨[.readEv p], fs, .error e⟩ := by
  simp only [runEntries, hext, hsup, if_true, hread, hfmt]

theorem runEntries_nochange {p : Path} {ext : String} {fs : FileSystem} {c : String}
    (hext : extension p = some ext) (hsup : isSupportedExt ext = true)
    (hread : readFile fs p = some c) (hfmt : format_file ext c = .ok none)
    (check : Bool) (rest : List (Except String Path)) :
    runEntries check (.ok p :: rest) fs =
      ⟨.readEv p :: (runEntries check rest fs).trace,
        (runEntries check rest fs).fs, (runEntries check rest fs).result⟩ := by
  simp only [runEntries, hext, hsup, if_true, hread, hfmt]

theorem runEntries_change_check {p : Path} {ext : String} {fs : FileSystem}
    {c t : String}
    (hext : extension p = some ext) (hsup : isSupportedExt ext = true)
    (hread : readFile fs p = some c) (hfmt : format_file ext c = .ok (some t))
    (rest : List (Except String Path)) :
    runEntries true (.ok p :: rest) fs =
      ⟨.readEv p :: .printedFmt p :: (runEntries true rest fs).trace,
        (runEntries true rest fs).fs, (runEntries true rest fs).result⟩ := by
  simp only [runEntries, hext, hsup, if_true, hread, hfmt]

theorem runEntries_change_write {p : Path} {ext : String} {fs : FileSystem}
    {c t : String}
    (hext : extension p = some ext) (hsup : isSupportedExt ext = true)
    (hread : readFile fs p = some c) (hfmt : format_file ext c = .ok (some t))
    (rest : List (Except String Path)) :
    runEntries false (.ok p :: rest) fs =
      ⟨.readEv p :: .printedFmt p :: .wrote p t
          :: (runEntries false rest (writeFile fs p t)).trace,
        (runEntries false rest (writeFile fs p t)).fs,
        (runEntries false rest (writeFile fs p t)).result⟩ := by
  simp only [runEntries, hext, hsup, if_true, hread, hfmt, Bool.false_eq_true, if_false]

theorem okPaths_nil : okPaths [] = [] := rfl

theorem okPaths_err (e : String) (rest : List (Except String Path)) :
    okPaths (.error e :: rest) = okPaths rest := rfl

theorem okPaths_ok (p : Path) (rest : List (Except String Path)) :
    okPaths (.ok p :: rest) = p :: okPaths rest := rfl

/-- In check mode the filesystem is left exactly as it was, whatever the
entries and however the run ends. -/
theorem runEntries_check_fs (entries : List (Except String Path)) :
    ∀ fs, (runEntries true entries fs).fs = fs := by
  induction entries with
  | nil => intro fs; rfl
  | cons entry rest ih =>
    intro fs
    match entry with
    | .error e => rw [runEntries_errEntry]; exact ih fs
    | .ok p =>
      rcases hext : extension p with _ | ext
      · rw [runEntries_skip_noExt hext]; exact ih fs
      · cases hsup : isSupportedExt ext with
        | false => rw [runEntries_skip_unsupported hext hsup]; exact ih fs
        | true =>
          rcases hread : readFile fs p with _ | c
          · rw [runEntries_read_fail hext hsup hread]
          · rcases hfmt : format_file ext c with e | r
            · rw [runEntries_dispatch_error hext hsup hread hfmt]
            · match r with
              | none => rw [runEntries_nochange hext hsup hread hfmt]; exact ih fs
              | some t => rw [runEntries_change_check hext hsup hread hfmt]; exact ih fs

/-- A path not among the resolved entries is never touched. -/
theorem runEntries_fs_frame {q : Path} (check : Bool) :
    ∀ (entries : List (Except String Path)) fs, q ∉ okPaths entries →
      readFile (runEntries check entries fs).fs q = readFile fs q := by
  intro entries
  induction entries with
  | nil => intro fs _; rfl
  | cons entry rest ih =>
    intro fs hq
    match entry with
    | .error e =>
      rw [okPaths_err] at hq
      rw [runEntries_errEntry]
      exact ih fs hq
    | .ok p =>
      rw [okPaths_ok] at hq
      have hqp : q ≠ p := fun h => hq (h ▸ List.mem_cons_self _ _)
      have hqrest : q ∉ okPaths rest := fun h => hq (List.mem_cons_of_mem _ h)
      rcases hext : extension p with _ | ext
      · rw [runEntries_skip_noExt hext]; exact ih fs hqrest
      · cases hsup : isSupportedExt ext with
        | false => rw [runEntries_skip_unsupported hext hsup]; exact ih fs hqrest
        | true =>
          rcases hread : readFile fs p with _ | c
          · rw [runEntries_read_fail hext hsup hread]
          · rcases hfmt : format_file ext c with e | r
            · rw [runEntries_dispatch_error hext hsup hread hfmt]
            · match r with
              | none =>
                rw [runEntries_nochange hext hsup hread hfmt]
                exact ih fs hqrest
              | some t =>
                cases check with
                | true =>
                  rw [runEntries_change_check hext hsup hread hfmt]
                  exact ih fs hqrest
                | false =>
                  rw [runEntries_change_write hext hsup hread hfmt]
                  rw [ih (writeFile fs p t) hqrest]
                  exact readFile_writeFile_ne t (fun h => hqp h.symm)

/-- No notice line is ever printed for a path not among the resolved
entries. -/
theorem runEntries_notice_zero {q : Path} (check : Bool) :
    ∀ (entries : List (Except String Path)) fs, q ∉ okPaths entries →
      (runEntries check entries fs).trace.count (.printedFmt q) = 0 := by
  intro entries
  induction entries with
  | nil => intro fs _; rfl
  | cons entry rest ih =>
    intro fs hq
    match entry with
    | .error e =>
      rw [okPaths_err] at hq
      rw [runEntries_errEntry]
      simpa [List.count_cons] using ih fs hq
    | .ok p =>
      rw [okPaths_ok] at hq
      have hqp : q ≠ p := fun h => hq (h ▸ List.mem_cons_self _ _)
      have hqrest : q ∉ okPaths rest := fun h => hq (List.mem_cons_of_mem _ h)
      rcases hext : extension p with _ | ext
      · rw [runEntries_skip_noExt hext]; exact ih fs hqrest
      · cases hsup : isSupportedExt ext with
        | false => rw [runEntries_skip_unsupported hext hsup]; exact ih fs hqrest
        | true =>
          rcases hread : readFile fs p with _ | c
          · rw [runEntries_read_fail hext hsup hread]
            simp [List.count_cons]
          · rcases hfmt : format_file ext c with e | r
            · rw [runEntries_dispatch_error hext hsup hread hfmt]
              simp [List.count_cons]
            · match r with
              | none =>
                rw [runEntries_nochange hext hsup hread hfmt]
                simpa [List.count_cons] using ih fs hqrest
              | some t =>
                cases check with
                | true =>
                  rw [runEntries_change_check hext hsup hread hfmt]
                  simpa [List.count_cons, Ne.symm hqp] using ih fs hqrest
                | false =>
                  rw [runEntries_change_write hext hsup hread hfmt]
                  simpa [List.count_cons, Ne.symm hqp]
                    using ih (writeFile fs p t) hqrest

theorem if_mem_cons {α : Type} {p q : Path} {l : List Path} {a b : α} (hpq : p ≠ q) :
    (if p ∈ q :: l then a else b) = (if p ∈ l then a else b) := by
  by_cases hm : p ∈ l
  · rw [if_pos (List.mem_cons_of_mem _ hm), if_pos hm]
  · rw [if_neg (fun h => (List.mem_cons.mp h).elim hpq hm), if_neg hm]

/-- Write-mode exactness: a completed run leaves every readable file holding
exactly the dispatcher's replacement text when one was produced, and its
original contents otherwise. -/
theorem runEntries_write_exact :
    ∀ (entries : List (Except String Path)) fs, (okPaths entries).Nodup →
      (runEntries false entries fs).result = .ok () →
      ∀ p c, readFile fs p = some c →
        readFile (runEntries false entries fs).fs p =
          some (if p ∈ okPaths entries then (replacementFor p c).getD c else c) := by
  intro entries
  induction entries with
  | nil =>
    intro fs _ _ p c hpc
    simpa [runEntries_nil, okPaths_nil] using hpc
  | cons entry rest ih =>
    intro fs hnd hres p c hpc
    match entry with
    | .error e =>
      rw [okPaths_err] at hnd
      rw [runEntries_errEntry] at hres
      replace hres : (runEntries false rest fs).result = .ok () := hres
      rw [runEntries_errEntry, okPaths_err]
      exact ih fs hnd hres p c hpc
    | .ok q =>
      rw [okPaths_ok] at hnd
      have hqnotin : q ∉ okPaths rest := (List.nodup_cons.mp hnd).1
      have hndrest : (okPaths rest).Nodup := (List.nodup_cons.mp hnd).2
      rcases hext : extension q with _ | ext
      · rw [runEntries_skip_noExt hext] at hres ⊢
        rw [okPaths_ok]
        by_cases hpq : p = q
        · subst hpq
          have hrf : replacementFor p c = none := by simp [replacementFor, hext]
          rw [if_pos (List.mem_cons_self _ _), hrf]
          have := ih fs hndrest hres p c hpc
          rw [if_neg hqnotin] at this
          simpa using this
        · rw [if_mem_cons hpq]
          exact ih fs hndrest hres p c hpc
      · cases hsup : isSupportedExt ext with
        | false =>
          rw [runEntries_skip_unsupported hext hsup] at hres ⊢
          rw [okPaths_ok]
          by_cases hpq : p = q
          · subst hpq
            have hrf : replacementFor p c = none := by
              simp [replacementFor, hext, hsup]
            rw [if_pos (List.mem_cons_self _ _), hrf]
            have := ih fs hndrest hres p c hpc
            rw [if_neg hqnotin] at this
            simpa using this
          · rw [if_mem_cons hpq]
            exact ih fs hndrest hres p c hpc
        | true =>
          rcases hread : readFile fs q with _ | c₀
          · rw [runEntries_read_fail hext hsup hread] at hres
            simp at hres
          · rcases hfmt : format_file ext c₀ with e | r
            · rw [runEntries_dispatch_error hext hsup hread hfmt] at hres
              simp at hres
            · match r with
              | none =>
                rw [runEntries_nochange hext hsup hread hfmt] at hres ⊢
                replace hres : (runEntries false rest fs).result = .ok () := hres
                rw [okPaths_ok]
                by_cases hpq : p = q
                · subst hpq
                  have hc : c = c₀ := by
                    rw [hpc] at hread
                    exact Option.some_inj.mp hread
                  subst hc
                  have hrf : replacementFor p c = none := by
                    simp [replacementFor, hext, hsup, hfmt]
                  rw [if_pos (List.mem_cons_self _ _), hrf]
                  have := ih fs hndrest hres p c hpc
                  rw [if_neg hqnotin] at this
                  simpa using this
                · rw [if_mem_cons hpq]
                  exact ih fs hndrest hres p c hpc
              | some t =>
                rw [runEntries_change_write hext hsup hread hfmt] at hres ⊢
                replace hres : (runEntries false rest (writeFile fs q t)).result
                    = .ok () := hres
                rw [okPaths_ok]
                by_cases hpq : p = q
                · subst hpq
                  have hc : c = c₀ := by
                    rw [hpc] at hread
                    exact Option.some_inj.mp hread
                  subst hc
                  have hrf : replacementFor p c = some t := by
                    simp [replacementFor, hext, hsup, hfmt]
                  rw [if_pos (List.mem_cons_self _ _), hrf]
                  show readFile (runEntries false rest (writeFile fs p t)).fs p
                    = some ((some t).getD c)
                  rw [runEntries_fs_frame false rest (writeFile fs p t) hqnotin,
                    readFile_writeFile_self hpc t]
                  rfl
                · rw [if_mem_cons hpq]
                  exact ih (writeFile fs q t) hndrest hres p c
                    (by rw [readFile_writeFile_ne t (Ne.symm hpq)]; exact hpc)

/-- A completed run prints the `fmt:` notice exactly once for each resolved
file whose dispatch produced replacement text, and never otherwise. -/
theorem runEntries_notice_count (check : Bool) :
    ∀ (entries : List (Except String Path)) fs, (okPaths entries).Nodup →
      (runEntries check entries fs).result = .ok () →
      ∀ p, (runEntries check entries fs).trace.count (.printedFmt p) =
        if p ∈ okPaths entries ∧
            (∃ c, readFile fs p = some c ∧ replacementFor p c ≠ none)
        then 1 else 0 := by
  intro entries
  induction entries with
  | nil =>
    intro fs _ _ p
    simp [runEntries_nil, okPaths_nil]
  | cons entry rest ih =>
    intro fs hnd hres p
    match entry with
    | .error e =>
      rw [okPaths_err] at hnd
      rw [runEntries_errEntry] at hres
      replace hres : (runEntries check rest fs).result = .ok () := hres
      rw [runEntries_errEntry, okPaths_err]
      show List.count _ (.printedErr e :: (runEntries check rest fs).trace) = _
      rw [List.count_cons]
      simpa using ih fs hnd hres p
    | .ok q =>
      rw [okPaths_ok] at hnd
      have hqnotin : q ∉ okPaths rest := (List.nodup_cons.mp hnd).1
      have hndrest : (okPaths rest).Nodup := (List.nodup_cons.mp hnd).2
      have hifcons : p ≠ q → ∀ u v : ℕ,
          (if p ∈ q :: okPaths rest ∧
              (∃ c, readFile fs p = some c ∧ replacementFor p c ≠ none)
            then u else v) =
          (if p ∈ okPaths rest ∧
              (∃ c, readFile fs p = some c ∧ replacementFor p c ≠ none)
            then u else v) := by
        intro hpq u v
        by_cases hm : p ∈ okPaths rest ∧
            (∃ c, readFile fs p = some c ∧ replacementFor p c ≠ none)
        · rw [if_pos ⟨List.mem_cons_of_mem _ hm.1, hm.2⟩, if_pos hm]
        · rw [if_neg (fun h => hm ⟨(List.mem_cons.mp h.1).resolve_left hpq, h.2⟩),
            if_neg hm]
      rcases hext : extension q with _ | ext
      · rw [runEntries_skip_noExt hext] at hres ⊢
        rw [okPaths_ok]
        by_cases hpq : p = q
        · subst hpq
          have hrf : ∀ c, replacementFor p c = none := fun c => by
            simp [replacementFor, hext]
          rw [if_neg (fun h => by
            obtain ⟨_, c, _, hne⟩ := h
            exact hne (hrf c))]
          have := ih fs hndrest hres p
          rw [if_neg (fun h => by
            obtain ⟨hm, c, _, hne⟩ := h
            exact hne (hrf c))] at this
          exact this
        · rw [hifcons hpq]
          exact ih fs hndrest hres p
      · cases hsup : isSupportedExt ext with
        | false =>
          rw [runEntries_skip_unsupported hext hsup] at hres ⊢
          rw [okPaths_ok]
          by_cases hpq : p = q
          · subst hpq
            have hrf : ∀ c, replacementFor p c = none := fun c => by
              simp [replacementFor, hext, hsup]
            rw [if_neg (fun h => by
              obtain ⟨_, c, _, hne⟩ := h
              exact hne (hrf c))]
            have := ih fs hndrest hres p
            rw [if_neg (fun h => by
              obtain ⟨hm, c, _, hne⟩ := h
              exact hne (hrf c))] at this
            exact this
          · rw [hifcons hpq]
            exact ih fs hndrest hres p
        | true =>
          rcases hread : readFile fs q with _ | c₀
          · rw [runEntries_read_fail hext hsup hread] at hres
            simp at hres
          · rcases hfmt : format_file ext c₀ with e | r
            · rw [runEntries_dispatch_error hext hsup hread hfmt] at hres
              simp at hres
            · match r with
              | none =>
                rw [runEntries_nochange hext hsup hread hfmt] at hres ⊢
                replace hres : (runEntries check rest fs).result = .ok () := hres
                rw [okPaths_ok]
                show List.count _ (.readEv q :: (runEntries check rest fs).trace) = _
                rw [List.count_cons]
                by_cases hpq : p = q
                · subst hpq
                  have hrf : replacementFor p c₀ = none := by
                    simp [replacementFor, hext, hsup, hfmt]
                  have hcond : ¬(p ∈ p :: okPaths rest ∧
                      (∃ c, readFile fs p = some c ∧ replacementFor p c ≠ none)) := by
                    rintro ⟨_, c, hc, hne⟩
                    rw [hread] at hc
                    exact hne ((Option.some_inj.mp hc) ▸ hrf)
                  rw [if_neg hcond]
                  have := ih fs hndrest hres p
                  rw [if_neg (fun h => by
                    obtain ⟨hm, c, hc, hne⟩ := h
                    rw [hread] at hc
                    exact hne ((Option.some_inj.mp hc) ▸ hrf))] at this
                  simpa using this
                · rw [hifcons hpq]
                  simpa using ih fs hndrest hres p
              | some t =>
                cases check with
                | true =>
                  rw [runEntries_change_check hext hsup hread hfmt] at hres ⊢
                  replace hres : (runEntries true rest fs).result = .ok () := hres
                  rw [okPaths_ok]
                  show List.count _ (.readEv q :: .printedFmt q
                      :: (runEntries true rest fs).trace) = _
                  rw [List.count_cons, List.count_cons]
                  by_cases hpq : p = q
                  · subst hpq
                    have hrf : replacementFor p c₀ = some t := by
                      simp [replacementFor, hext, hsup, hfmt]
                    have hcnd : p ∈ p :: okPaths rest ∧
                        (∃ c, readFile fs p = some c ∧ replacementFor p c ≠ none) :=
                      And.intro (List.mem_cons_self p (okPaths rest))
                        (Exists.intro c₀ (And.intro hread (by simp [hrf])))
                    rw [if_pos hcnd]
                    have h0 := runEntries_notice_zero true rest fs hqnotin
                    simp [h0]
                  · rw [hifcons hpq]
                    simpa [Ne.symm hpq] using ih fs hndrest hres p
                | false =>
                  rw [runEntries_change_write hext hsup hread hfmt] at hres ⊢
                  replace hres : (runEntries false rest (writeFile fs q t)).result
                      = .ok () := hres
                  rw [okPaths_ok]
                  show List.count _ (.readEv q :: .printedFmt q :: .wrote q t
                      :: (runEntries false rest (writeFile fs q t)).trace) = _
                  rw [List.count_cons, List.count_cons, List.count_cons]
                  by_cases hpq : p = q
                  · subst hpq
                    have hrf : replacementFor p c₀ = some t := by
                      simp [replacementFor, hext, hsup, hfmt]
                    have hcnd : p ∈ p :: okPaths rest ∧
                        (∃ c, readFile fs p = some c ∧ replacementFor p c ≠ none) :=
                      And.intro (List.mem_cons_self p (okPaths rest))
                        (Exists.intro c₀ (And.intro hread (by simp [hrf])))
                    rw [if_pos hcnd]
                    have h0 := runEntries_notice_zero false rest
                      (writeFile fs p t) hqnotin
                    simp [h0]
                  · rw [hifcons hpq]
                    have := ih (writeFile fs q t) hndrest hres p
                    rw [show readFile (writeFile fs q t) p = readFile fs p from
                      readFile_writeFile_ne t (Ne.symm hpq)] at this
                    simpa [Ne.symm hpq] using this

/-- A check-mode run records no write event at all. -/
theorem runEntries_check_no_wrote :
    ∀ (entries : List (Except String Path)) fs (q : Path) (t : String),
      Event.wrote q t ∉ (runEntries true entries fs).trace := by
  intro entries
  induction entries with
  | nil => intro fs q t; simp [runEntries_nil]
  | cons entry rest ih =>
    intro fs q t
    match entry with
    | .error e =>
      rw [runEntries_errEntry]
      intro hmem
      rcases List.mem_cons.mp hmem with h | h
      · exact Event.noConfusion h
      · exact ih fs q t h
    | .ok p =>
      rcases hext : extension p with _ | ext
      · rw [runEntries_skip_noExt hext]; exact ih fs q t
      · cases hsup : isSupportedExt ext with
        | false => rw [runEntries_skip_unsupported hext hsup]; exact ih fs q t
        | true =>
          rcases hread : readFile fs p with _ | c
          · rw [runEntries_read_fail hext hsup hread]
            simp
          · rcases hfmt : format_file ext c with e | r
            · rw [runEntries_dispatch_error hext hsup hread hfmt]
              simp
            · match r with
              | none =>
                rw [runEntries_nochange hext hsup hread hfmt]
                intro hmem
                rcases List.mem_cons.mp hmem with h | h
                · exact Event.noConfusion h
                · exact ih fs q t h
              | some t' =>
                rw [runEntries_change_check hext hsup hread hfmt]
                intro hmem
                rcases List.mem_cons.mp hmem with h | h
                · exact Event.noConfusion h
                · rcases List.mem_cons.mp h with h1 | h1
                  · exact Event.noConfusion h1
                  · exact ih fs q t h1

/-- Scan a trace checking that every write event follows, immediately, a
notice naming the same path. -/
def writesNoticed : List Event → Bool
  | [] => true
  | .wrote _ _ :: _ => false
  | .printedFmt p :: .wrote q _ :: rest => p = q && writesNoticed rest
  | _ :: rest => writesNoticed rest

theorem writesNoticed_cons_printedErr (m : String) (tr : List Event) :
    writesNoticed (.printedErr m :: tr) = writesNoticed tr := by
  match tr with
  | [] => rfl
  | .printedFmt _ :: _ => rfl
  | .printedErr _ :: _ => rfl
  | .readEv _ :: _ => rfl
  | .wrote _ _ :: _ => rfl

theorem writesNoticed_cons_readEv (p : Path) (tr : List Event) :
    writesNoticed (.readEv p :: tr) = writesNoticed tr := by
  match tr with
  | [] => rfl
  | .printedFmt _ :: _ => rfl
  | .printedErr _ :: _ => rfl
  | .readEv _ :: _ => rfl
  | .wrote _ _ :: _ => rfl

theorem writesNoticed_cons_printedFmt {tr : List Event} (p : Path)
    (h : ∀ q t tl, tr ≠ .wrote q t :: tl) :
    writesNoticed (.printedFmt p :: tr) = writesNoticed tr := by
  match tr with
  | [] => rfl
  | .printedFmt _ :: _ => rfl
  | .printedErr _ :: _ => rfl
  | .readEv _ :: _ => rfl
  | .wrote q t :: tl => exact absurd rfl (h q t tl)

theorem writesNoticed_notice_write (p : Path) (t : String) (tr : List Event) :
    writesNoticed (.printedFmt p :: .wrote p t :: tr) = writesNoticed tr := by
  show (decide (p = p) && writesNoticed tr) = writesNoticed tr
  simp

/-- Every run's trace satisfies the console-before-write contract: a write
is always immediately preceded by the `fmt:` notice for the same path. -/
theorem runEntries_writesNoticed (check : Bool) :
    ∀ (entries : List (Except String Path)) fs,
      writesNoticed (runEntries check entries fs).trace = true := by
  intro entries
  induction entries with
  | nil => intro fs; rfl
  | cons entry rest ih =>
    intro fs
    match entry with
    | .error e =>
      rw [runEntries_errEntry]
      show writesNoticed (.printedErr e :: (runEntries check rest fs).trace) = true
      rw [writesNoticed_cons_printedErr]
      exact ih fs
    | .ok p =>
      rcases hext : extension p with _ | ext
      · rw [runEntries_skip_noExt hext]; exact ih fs
      · cases hsup : isSupportedExt ext with
        | false => rw [runEntries_skip_unsupported hext hsup]; exact ih fs
        | true =>
          rcases hread : readFile fs p with _ | c
          · rw [runEntries_read_fail hext hsup hread]
            rfl
          · rcases hfmt : format_file ext c with e | r
            · rw [runEntries_dispatch_error hext hsup hread hfmt]
              rfl
            · match r with
              | none =>
                rw [runEntries_nochange hext hsup hread hfmt]
                show writesNoticed (.readEv p :: (runEntries check rest fs).trace) = true
                rw [writesNoticed_cons_readEv]
                exact ih fs
              | some t =>
                cases check with
                | true =>
                  rw [runEntries_change_check hext hsup hread hfmt]
                  show writesNoticed (.readEv p :: .printedFmt p
                    :: (runEntries true rest fs).trace) = true
                  rw [writesNoticed_cons_readEv,
                    writesNoticed_cons_printedFmt p (fun q t' tl heq =>
                      runEntries_check_no_wrote rest fs q t'
                        (by rw [heq]; exact List.mem_cons_self _ _))]
                  exact ih fs
                | false =>
                  rw [runEntries_change_write hext hsup hread hfmt]
                  show writesNoticed (.readEv p :: .printedFmt p :: .wrote p t
                    :: (runEntries false rest (writeFile fs p t)).trace) = true
                  rw [writesNoticed_cons_readEv, writesNoticed_notice_write]
                  exact ih (writeFile fs p t)

/-- The dispatcher's catch-all arm: every unsupported tag yields `Ok(None)`. -/
theorem format_file_unsupported {ext : String}
    (hsup : isSupportedExt ext = false) (c : String) :
    format_file ext c = .ok none := by
  have h1 : ¬(ext = "js" ∨ ext = "ts" ∨ ext = "jsx" ∨ ext = "tsx") := by
    rintro (rfl | rfl | rfl | rfl) <;> simp [isSupportedExt] at hsup
  have h2 : ¬(ext = "json" ∨ ext = "jsonc") := by
    rintro (rfl | rfl) <;> simp [isSupportedExt] at hsup
  have h3 : ¬(ext = "md" ∨ ext = "markdown") := by
    rintro (rfl | rfl) <;> simp [isSupportedExt] at hsup
  unfold format_file
  rw [fmtGo_two, if_neg h1, if_neg h2, if_neg h3]

theorem fmt_glob_ok {options : FormatOptions} {w : World}
    {entries : List (Except String Path)}
    (h : w.globFn options.glob = .ok entries) :
    fmt options w = runEntries options.check entries w.fs := by
  rw [fmt, h]

theorem fmt_glob_error {options : FormatOptions} {w : World} {e : String}
    (h : w.globFn options.glob = .error e) :
    fmt options w = ⟨[], w.fs, .error (.globPattern e)⟩ := by
  rw [fmt, h]

/-- The language-specific comment form in which the `bueno-fmt-ignore-file`
marker is recognized at the very start of a file's content: a `//` line
comment for the script and structured-data languages, an HTML comment for
prose (spec §6: ignore markers are recognized tokens). -/
def recognizedIgnoreFileStart (ext : String) (contents : String) : Bool :=
  if ext = "js" ∨ ext = "ts" ∨ ext = "jsx" ∨ ext = "tsx" then
    (lineCommentDirective "bueno-fmt-ignore-file").isPrefixOf contents.data
  else if ext = "json" ∨ ext = "jsonc" then
    (lineCommentDirective "bueno-fmt-ignore-file").isPrefixOf contents.data
  else if ext = "md" ∨ ext = "markdown" then
    (htmlCommentDirective "bueno-fmt-ignore-file").isPrefixOf contents.data
  else false

/-! ## Claims -/

/-- C1: running the batch driver `fmt` with check=true never writes to any
file on disk, even when the dispatcher returns replacement text for one or
more files (the final filesystem equals the initial one and the trace holds
no write event, however the run ends); and running with check=false writes
exactly those files for which the dispatcher returned replacement text —
after a completed run every readable file holds the dispatcher's replacement
text when one was produced and its original contents otherwise (files with
result "no change" and unsupported files are left untouched). -/
theorem fmt_check_no_mutation_and_write_exact (options : FormatOptions) (w : World) :
    (options.check = true → (fmt options w).fs = w.fs ∧
      ∀ q t, Event.wrote q t ∉ (fmt options w).trace) ∧
    (options.check = false → (fmt options w).result = .ok () →
      ∀ entries, w.globFn options.glob = .ok entries → (okPaths entries).Nodup →
        ∀ p c, readFile w.fs p = some c →
          readFile (fmt options w).fs p =
            some (if p ∈ okPaths entries then (replacementFor p c).getD c else c)) := by
  constructor
  · intro hc
    rcases hg : w.globFn options.glob with e | entries
    · rw [fmt_glob_error hg]
      exact ⟨rfl, by simp⟩
    · rw [fmt_glob_ok hg, hc]
      exact ⟨runEntries_check_fs entries w.fs,
        fun q t => runEntries_check_no_wrote entries w.fs q t⟩
  · intro hc hres entries hg hnd p c hpc
    rw [fmt_glob_ok hg, hc] at hres ⊢
    exact runEntries_write_exact entries w.fs hnd hres p c hpc

theorem fmt_check_no_mutation_and_write_exact_witness :
    ((fmt ⟨false, "*.ts"⟩ ⟨fun _ => .ok [.ok "a.ts"], [("a.ts", "x")]⟩).result
      = .ok ()) ∧
    readFile (fmt ⟨false, "*.ts"⟩ ⟨fun _ => .ok [.ok "a.ts"], [("a.ts", "x")]⟩).fs "a.ts"
      = some (if "a.ts" ∈ okPaths [.ok "a.ts"]
          then (replacementFor "a.ts" "x").getD "x" else "x") :=
  ⟨by decide,
    (fmt_check_no_mutation_and_write_exact ⟨false, "*.ts"⟩
      ⟨fun _ => .ok [.ok "a.ts"], [("a.ts", "x")]⟩).2 rfl (by decide)
      [.ok "a.ts"] rfl (by decide) "a.ts" "x" (by decide)⟩

/-- C2: for every supported language tag and every input text whose content
begins with `bueno-fmt-ignore-file` as a recognized directive, the dispatcher
`format_file` returns "no change" regardless of how malformed the rest of the
text's formatting is. -/
theorem format_file_ignore_file_marker (ext contents : String)
    (hsup : isSupportedExt ext = true)
    (hdir : recognizedIgnoreFileStart ext contents = true) :
    format_file ext contents = .ok none := by
  unfold recognizedIgnoreFileStart at hdir
  unfold format_file
  rw [fmtGo_two]
  by_cases h1 : ext = "js" ∨ ext = "ts" ∨ ext = "jsx" ∨ ext = "tsx"
  · rw [if_pos h1] at hdir ⊢
    unfold format_typescript_file dprint_typescript_format_text
    rw [show typescriptConfiguration.ignoreFileCommentText
      = "bueno-fmt-ignore-file" from rfl, if_pos hdir]
  · rw [if_neg h1] at hdir ⊢
    by_cases h2 : ext = "json" ∨ ext = "jsonc"
    · rw [if_pos h2] at hdir ⊢
      unfold format_json_file dprint_json_format_text
      rw [if_pos (by
        rw [show jsonConfiguration.ignoreNodeCommentText ++ "-file"
          = "bueno-fmt-ignore-file" from by decide]
        exact hdir)]
    · rw [if_neg h2] at hdir ⊢
      by_cases h3 : ext = "md" ∨ ext = "markdown"
      · rw [if_pos h3] at hdir ⊢
        unfold dprint_markdown_format_text
        rw [show markdownConfiguration.ignoreFileDirective
          = "bueno-fmt-ignore-file" from rfl, if_pos hdir]
      · exfalso
        simp only [isSupportedExt, Bool.or_eq_true, beq_iff_eq] at hsup
        rcases hsup with ((((((h | h) | h) | h) | h) | h) | h) | h
        · exact h1 (Or.inl h)
        · exact h1 (Or.inr (Or.inl h))
        · exact h1 (Or.inr (Or.inr (Or.inl h)))
        · exact h1 (Or.inr (Or.inr (Or.inr h)))
        · exact h2 (Or.inl h)
        · exact h2 (Or.inr h)
        · exact h3 (Or.inl h)
        · exact h3 (Or.inr h)

theorem format_file_ignore_file_marker_witness :
    isSupportedExt "json" = true ∧
    recognizedIgnoreFileStart "json" "// bueno-fmt-ignore-file\n]]]" = true ∧
    format_file "json" "// bueno-fmt-ignore-file\n]]]" = .ok none :=
  ⟨by decide, by decide,
    format_file_ignore_file_marker "json" "// bueno-fmt-ignore-file\n]]]"
      (by decide) (by decide)⟩

/-- C3: an error on an individual glob entry is printed and that entry
skipped while the run continues over the remaining entries; a failure reading
the contents of a successfully resolved, supported file aborts the whole run
immediately — nothing further is processed, the filesystem is unchanged, and
the read error is surfaced to the caller. -/
theorem fmt_entry_error_skipped_read_error_fatal :
    (∀ (check : Bool) (e : String) (rest : List (Except String Path)) fs,
      runEntries check (.error e :: rest) fs =
        ⟨.printedErr e :: (runEntries check rest fs).trace,
          (runEntries check rest fs).fs, (runEntries check rest fs).result⟩) ∧
    (∀ (check : Bool) (p : Path) (ext : String) (rest : List (Except String Path)) fs,
      extension p = some ext → isSupportedExt ext = true → readFile fs p = none →
      runEntries check (.ok p :: rest) fs = ⟨[.readEv p], fs, .error (.readError p)⟩) :=
  ⟨fun check e rest fs => runEntries_errEntry check e rest fs,
    fun check p ext rest fs hext hsup hread =>
      runEntries_read_fail hext hsup hread check rest⟩

theorem fmt_entry_error_skipped_read_error_fatal_witness :
    (runEntries false [.error "bad entry", .ok "a.ts"] [("a.ts", "x")] =
      ⟨.printedErr "bad entry"
          :: (runEntries false [.ok "a.ts"] [("a.ts", "x")]).trace,
        (runEntries false [.ok "a.ts"] [("a.ts", "x")]).fs,
        (runEntries false [.ok "a.ts"] [("a.ts", "x")]).result⟩) ∧
    (runEntries false [.ok "b.md", .ok "a.ts"] [("a.ts", "x")] =
      ⟨[.readEv "b.md"], [("a.ts", "x")], .error (.readError "b.md")⟩) :=
  ⟨fmt_entry_error_skipped_read_error_fatal.1 false "bad entry" [.ok "a.ts"]
      [("a.ts", "x")],
    fmt_entry_error_skipped_read_error_fatal.2 false "b.md" "md" [.ok "a.ts"]
      [("a.ts", "x")] (by decide) (by decide) (by decide)⟩

/-- C4: if the dispatcher fails on a file, the batch run terminates
immediately with that error propagated unmodified, the failing file's
on-disk contents are unchanged from before the attempt (the filesystem state
`fs` — which already holds every file written earlier in the run — is
returned as is, so earlier writes stay written), no `fmt:` line is printed
for the failing file, and the remaining entries are not processed. -/
theorem fmt_dispatch_error_fatal (check : Bool) (p : Path) (ext : String)
    (rest : List (Except String Path)) (fs : FileSystem) (c : String) (e : FmtError)
    (hext : extension p = some ext) (hsup : isSupportedExt ext = true)
    (hread : readFile fs p = some c) (hfmt : format_file ext c = .error e) :
    runEntries check (.ok p :: rest) fs = ⟨[.readEv p], fs, .error e⟩ :=
  runEntries_dispatch_error hext hsup hread hfmt check rest

theorem fmt_dispatch_error_fatal_witness :
    runEntries false [.ok "a.json", .ok "b.ts"] [("a.json", ""), ("b.ts", "y")] =
      ⟨[.readEv "a.json"], [("a.json", ""), ("b.ts", "y")],
        .error (.syntaxError "json parse error")⟩ :=
  fmt_dispatch_error_fatal false "a.json" "json" [.ok "b.ts"]
    [("a.json", ""), ("b.ts", "y")] "" (.syntaxError "json parse error")
    (by decide) (by decide) (by decide) (by decide)

/-- C5: for every language tag outside the supported set the dispatcher
returns "no change" rather than failing; and at the driver level a matched
file whose extension is unsupported (or absent) is never read and never
reported — its processing step is exactly the processing of the remaining
entries, contributing no event and no filesystem change, for any content. -/
theorem format_file_unsupported_passthrough :
    (∀ (ext c : String), isSupportedExt ext = false → format_file ext c = .ok none) ∧
    (∀ (check : Bool) (p : Path) (rest : List (Except String Path)) fs,
      (∀ ext, extension p = some ext → isSupportedExt ext = false) →
      runEntries check (.ok p :: rest) fs = runEntries check rest fs) := by
  constructor
  · intro ext c hsup
    exact format_file_unsupported hsup c
  · intro check p rest fs h
    rcases hext : extension p with _ | ext
    · exact runEntries_skip_noExt hext check rest fs
    · exact runEntries_skip_unsupported hext (h ext hext) check rest fs

theorem format_file_unsupported_passthrough_witness :
    format_file "txt" "][;;; anything" = .ok none ∧
    runEntries false [.ok "note.txt"] [("note.txt", "anything")] =
      runEntries false [] [("note.txt", "anything")] :=
  ⟨format_file_unsupported_passthrough.1 "txt" "][;;; anything" (by decide),
    format_file_unsupported_passthrough.2 false "note.txt" []
      [("note.txt", "anything")] (fun ext hext => by
        rw [show extension "note.txt" = some "txt" from by decide] at hext
        injection hext with hext
        rw [← hext]
        decide)⟩

/-- C6: in every run, a write event is always immediately preceded by the
`fmt: <path>` notice for the same path (so the notice is printed before any
write, and no write happens without its notice); and a completed run prints
exactly one notice for every resolved file whose dispatch produced
replacement text, and none for any other path. -/
theorem fmt_console_output_contract :
    (∀ (check : Bool) (entries : List (Except String Path)) fs,
      writesNoticed (runEntries check entries fs).trace = true) ∧
    (∀ (check : Bool) (entries : List (Except String Path)) fs,
      (okPaths entries).Nodup → (runEntries check entries fs).result = .ok () →
      ∀ p, (runEntries check entries fs).trace.count (.printedFmt p) =
        if p ∈ okPaths entries ∧
            (∃ c, readFile fs p = some c ∧ replacementFor p c ≠ none)
        then 1 else 0) :=
  ⟨fun check entries fs => runEntries_writesNoticed check entries fs,
    fun check entries fs hnd hres p =>
      runEntries_notice_count check entries fs hnd hres p⟩

theorem fmt_console_output_contract_witness :
    writesNoticed (runEntries false [.ok "a.ts"] [("a.ts", "x")]).trace = true ∧
    (runEntries false [.ok "a.ts"] [("a.ts", "x")]).trace.count
        (.printedFmt "a.ts") =
      if "a.ts" ∈ okPaths [.ok "a.ts"] ∧
          (∃ c, readFile [("a.ts", "x")] "a.ts" = some c ∧
            replacementFor "a.ts" c ≠ none)
      then 1 else 0 :=
  ⟨fmt_console_output_contract.1 false [.ok "a.ts"] [("a.ts", "x")],
    fmt_console_output_contract.2 false [.ok "a.ts"] [("a.ts", "x")]
      (by decide) (by decide) "a.ts"⟩

/-- C7: dispatching any source text via extension `jsx` and via `js` produces
identical Format Results (both route to the script capability with the same
configuration — the differing `fake_path` does not enter the result), and
likewise for the alias pairs ts/tsx, json/jsonc and md/markdown. -/
theorem format_file_extension_aliases (c : String) :
    format_file "jsx" c = format_file "js" c ∧
    format_file "tsx" c = format_file "ts" c ∧
    format_file "jsonc" c = format_file "json" c ∧
    format_file "markdown" c = format_file "md" c :=
  ⟨rfl, rfl, rfl, rfl⟩

/-- C8: the prose formatter receives the callback
`|tag, text, _line_number| format_file(tag, text)` — the top-level dispatcher
itself (and the dispatcher routes prose files to exactly this formatter); on
each embedded fenced block the callback is invoked with the block's declared
tag and raw text, whose Format Result determines the block's new body; and a
block with an unsupported tag is left unchanged. -/
theorem markdown_blocks_use_dispatcher (tag : List Char) (body : List (List Char)) :
    (format_markdown_file = fun contents =>
      dprint_markdown_format_text contents markdownConfiguration
        (fun t x _ln => format_file t x)) ∧
    (∀ c, format_file "md" c = format_markdown_file c) ∧
    (processSegment (fun t x _ln => format_file t x) (.fence tag body)
      = match format_file ⟨tag⟩ ⟨joinLines body⟩ with
        | .error e => .error e
        | .ok none => .ok (.fence tag body)
        | .ok (some t) => .ok (.fence tag (splitLines t.data))) ∧
    (isSupportedExt ⟨tag⟩ = false →
      processSegment (fun t x _ln => format_file t x) (.fence tag body)
        = .ok (.fence tag body)) := by
  refine ⟨rfl, fun c => format_file_md_eq c, rfl, ?_⟩
  intro hsup
  rw [processSegment, format_file_unsupported hsup]

theorem markdown_blocks_use_dispatcher_witness :
    processSegment (fun t x _ln => format_file t x)
        (.fence "txt".data ["hello".data])
      = .ok (.fence "txt".data ["hello".data]) :=
  (markdown_blocks_use_dispatcher "txt".data ["hello".data]).2.2.2 (by decide)

/-- C9: for every language tag and every input text on which `format_file`
succeeds with replacement text, applying `format_file` to the replacement
with the same tag succeeds and returns "no change" — formatting is
idempotent. -/
theorem format_file_idempotent (ext x t : String)
    (h : format_file ext x = .ok (some t)) : format_file ext t = .ok none :=
  format_file_idem h

theorem format_file_idempotent_witness :
    format_file "ts" "x" = .ok (some "x\n") ∧ format_file "ts" "x\n" = .ok none :=
  ⟨by decide, format_file_idempotent "ts" "x" "x\n" (by decide)⟩

/-- C10: if the glob pattern itself fails to compile, `fmt` returns that
error immediately: no file is read, no file is written, and no notice is
printed (the trace is empty and the filesystem untouched). -/
theorem fmt_invalid_pattern_aborts (options : FormatOptions) (w : World)
    (e : String) (h : w.globFn options.glob = .error e) :
    fmt options w = ⟨[], w.fs, .error (.globPattern e)⟩ :=
  fmt_glob_error h

theorem fmt_invalid_pattern_aborts_witness :
    fmt ⟨true, "[["⟩ ⟨fun _ => .error "invalid pattern", [("a.ts", "x")]⟩ =
      ⟨[], [("a.ts", "x")], .error (.globPattern "invalid pattern")⟩ :=
  fmt_invalid_pattern_aborts ⟨true, "[["⟩
    ⟨fun _ => .error "invalid pattern", [("a.ts", "x")]⟩ "invalid pattern" rfl

end BuenoFmt
